import Mathlib

/-!
# Download manager of the bulletin board (`bbs/thread/download/download.go`)

A shallow embedding of the per-datfile download manager: the target records it
tracks, the process-wide table `managers`, and the operations `NewManger`,
`Set`, `Get`, `checkFinished` and `Finished`; of the two conversations with a
peer built on it, `headWithRange` and `getWithRange`; and of `RemoveOlds` and
`get` of the recent list (`bbs/recentlist/recentlist.go`).

Modelling conventions.

* A Go map that is iterated (`Manager.recs`) is an association list; the order
  of the list stands for the iteration order of the map, which Go leaves
  unspecified, so every theorem is stated for an arbitrary list.
* A `*targetRec` held in the slice built by `Get` is the position of the record
  in that list.
* A `*Manager` is an address (`Addr`); the table `managers` is a finite partial
  function from datfile names to addresses.
* `sort.Sort` promises a sorted permutation and nothing about ties; it is a
  parameter (`Sorter`) carrying exactly that promise.
* Stamps (`int64`) and retry counts (`int`) are integers. The manager only
  compares stamps, and a retry count is incremented only on records that `Get`
  assigned, which requires a count below 5, so no machine arithmetic overflows.
  Where the code subtracts stamps (`headWithRange`, `RemoveOlds`) the result is
  wrapped to the range of `int64`.
* Calls to a peer (`n.Talk`) are inputs: the outcome of each call is an
  argument, `none` for an error.
-/

namespace Download

/-! ## Data model -/

/-- Peer (`node.Node`). The package `bbs/node` is outside the sources at hand;
`Equals` compares the node string, which is all a peer is here. -/
structure Node where
  Nodestr : String
deriving DecidableEq, Repr

/-- Target record (`targetRec`): candidate peers `node`, the peer currently
fetching it `downloading` (`none` for a nil pointer), `finished`, the retry
counter `count`, and `stamp`. -/
structure targetRec where
  node : List Node
  downloading : Option Node
  finished : Bool
  count : Int
  stamp : Int
deriving DecidableEq, Repr

/-- The map `recs` of a manager: record key to target record. -/
abbrev Recs := List (String × targetRec)

/-- Download manager (`Manager`); the mutex is not modelled, calls are
sequential. -/
structure Manager where
  datfile : String
  recs : Recs
deriving DecidableEq, Repr

/-- Address of a `Manager` object (a `*Manager`). -/
abbrev Addr := Nat

/-- The package-level table `managers`: datfile to registered manager. -/
abbrev Registry := String → Option Addr

/-- Statement `managers[d] = dm`. -/
def Registry.set (ms : Registry) (d : String) (a : Addr) : Registry :=
  fun d' => if d' = d then some a else ms d'

/-- Statement `delete(managers, d)`. -/
def Registry.delete (ms : Registry) (d : String) : Registry :=
  fun d' => if d' = d then none else ms d'

/-- Record head as `Set` sees it. The package `bbs/record` is outside the
sources at hand, so the results of the two key methods `Idstr()` and `Recstr()`
are carried as fields, next to the field `Stamp`. -/
structure Head where
  Stamp : Int
  Idstr : String
  Recstr : String
deriving DecidableEq, Repr

/-- What `NewManger` reads of a `thread.Cache`: the field `Datfile` and the keys
of the map returned by `LoadRecords(record.All)`, in iteration order. -/
structure Cache where
  Datfile : String
  keys : List String
deriving DecidableEq, Repr

/-! ## Map operations on `recs` -/

/-- Map read `recs[k]`. -/
def Recs.find (k : String) : Recs → Option targetRec
  | [] => none
  | (k', r) :: rest => if k' = k then some r else Recs.find k rest

/-- Mutation through the pointer stored under `k`. -/
def Recs.modify (k : String) (f : targetRec → targetRec) : Recs → Recs
  | [] => []
  | (k', r) :: rest => if k' = k then (k', f r) :: rest else (k', r) :: Recs.modify k f rest

/-- Map write `recs[k] = r`: replaces the value under `k`, or adds the key. -/
def Recs.insert (k : String) (r : targetRec) : Recs → Recs
  | [] => [(k, r)]
  | (k', r') :: rest => if k' = k then (k', r) :: rest else (k', r') :: Recs.insert k r rest

/-! ## Construction and `Set` -/

/-- The literal `&targetRec{finished: true}` of line 96: all other fields are
zero values. -/
def finishedRec : targetRec :=
  { node := [], downloading := none, finished := true, count := 0, stamp := 0 }

/-- Lines 90 to 100 of `NewManger`: every local key becomes a finished record. -/
def Manager.fresh (ca : Cache) : Manager :=
  { datfile := ca.Datfile
    recs := ca.keys.foldl (fun recs k => Recs.insert k finishedRec recs) [] }

/-- One iteration of the loop of `Set`, for the parsed head `r`. -/
def Manager.setOne (dm : Manager) (r : Head) (n : Node) : Manager :=
  match Recs.find r.Idstr dm.recs with
  | some rec =>
    if !rec.finished then
      { dm with recs := Recs.modify r.Idstr (fun x => { x with node := x.node ++ [n] }) dm.recs }
    else dm
  | none =>
    let fresh : targetRec :=
      { node := [n], downloading := none, finished := false, count := 0, stamp := r.Stamp }
    { dm with recs := Recs.insert r.Recstr fresh dm.recs }

/-- `Set`, given the heads parsed from the response (`record.ParseHeadResponse`
is outside the sources at hand, the parsed heads are the argument). -/
def Manager.Set (dm : Manager) (recs : List Head) (n : Node) : Manager :=
  recs.foldl (fun d r => Manager.setOne d r n) dm

/-! ## `Get` -/

/-- The condition of line 128. -/
def eligible (n : Node) (r : targetRec) : Bool :=
  decide (n ∈ r.node) && !r.finished && r.downloading.isNone && decide (r.count < 5)

/-- The loop of lines 127 to 131: the slice `s` of selected records, each with
its position in `recs` (the pointer), positions counted from `off`. -/
def selectFrom (n : Node) : Nat → Recs → List (Nat × targetRec)
  | _, [] => []
  | off, (_, r) :: rest =>
    if eligible n r then (off, r) :: selectFrom n (off + 1) rest
    else selectFrom n (off + 1) rest

/-- Contract of `sort.Sort(sort.Reverse(s))` for `TargetRecSlice`: the result is
a permutation of `s` in which no element has a smaller stamp than a later one.
The order among equal stamps is left to the implementation. -/
structure Sorter where
  run : List (Nat × targetRec) → List (Nat × targetRec)
  perm : ∀ l, (run l).Perm l
  sorted : ∀ l, (run l).Pairwise (fun a b => b.2.stamp ≤ a.2.stamp)

/-- Lines 138 to 141: the index `begin` for a selection of `len` records. -/
def beginIdx (len : Nat) : Nat :=
  if len > 5 then len / 2 else len - 1

/-- Stamp `s[i].stamp` (an index out of range would be a panic; it does not
occur, `0` stands for it). -/
def stampAt (s : List (Nat × targetRec)) (i : Nat) : Int :=
  match s[i]? with
  | some x => x.2.stamp
  | none => 0

/-- The loop of lines 142 to 144 seen from the map: the records at the chosen
positions get `downloading = n`. Positions counted from `off`. -/
def markFrom (n : Node) (chosen : List Nat) : Nat → Recs → Recs
  | _, [] => []
  | off, (k, r) :: rest =>
    (if off ∈ chosen then (k, { r with downloading := some n }) else (k, r))
      :: markFrom n chosen (off + 1) rest

/-- Give-up step of `checkFinished` on one record (lines 154 to 156). -/
def giveUp (r : targetRec) : targetRec :=
  if 5 ≤ r.count then { r with finished := true } else r

/-- `checkFinished`. -/
def Manager.checkFinished (dm : Manager) (ms : Registry) : Registry × Manager :=
  match ms dm.datfile with
  | none => (ms, dm)
  | some _ =>
    let recs := dm.recs.map (fun kr => (kr.1, giveUp kr.2))
    let finished := recs.all (fun kr => kr.2.finished)
    (if finished then ms.delete dm.datfile else ms, { dm with recs := recs })

/-- Result of `Get`: the table `managers` and the manager after the call, and
the returned pair. -/
structure GetResult where
  managers : Registry
  dm : Manager
  low : Int
  high : Int

/-- `Get` for the manager `dm` stored at address `self`. -/
def Manager.Get (dm : Manager) (srt : Sorter) (ms : Registry) (self : Addr) (n : Node) :
    GetResult :=
  let s := selectFrom n 0 dm.recs
  if s.length = 0 then
    let c := dm.checkFinished ms
    { managers := c.1, dm := c.2, low := -1, high := -1 }
  else
    let s := srt.run s
    let begin := beginIdx s.length
    let chosen := (s.take (begin + 1)).map Prod.fst
    { managers := ms.set dm.datfile self
      dm := { dm with recs := markFrom n chosen 0 dm.recs }
      low := stampAt s begin
      high := stampAt s 0 }

/-! ## `Finished` -/

/-- Body of the loop of `Finished` on one record (lines 173 to 180). -/
def finishOne (n : Node) (success : Bool) (r : targetRec) : targetRec :=
  if r.downloading = some n then
    if success then { r with finished := true, downloading := none }
    else { r with count := r.count + 1, downloading := none }
  else r

/-- `Finished`. -/
def Manager.Finished (dm : Manager) (ms : Registry) (n : Node) (success : Bool) :
    Registry × Manager :=
  Manager.checkFinished
    { dm with recs := dm.recs.map (fun kr => (kr.1, finishOne n success kr.2)) } ms

/-! ## The table of managers and `NewManger` -/

/-- Program state around the managers: the allocated `Manager` objects (an
address is a position in `heap`) and the table `managers`. -/
structure World where
  heap : List Manager
  managers : Registry

/-- `NewManger`: returns the address of the manager and the state after the
call. -/
def NewManger (w : World) (ca : Cache) : World × Addr :=
  match w.managers ca.Datfile with
  | some d => (w, d)
  | none => ({ w with heap := w.heap ++ [Manager.fresh ca] }, w.heap.length)

/-- `Get` called through the pointer `a`. -/
def World.Get (w : World) (srt : Sorter) (a : Addr) (n : Node) : Option (World × Int × Int) :=
  match w.heap[a]? with
  | none => none
  | some dm =>
    let r := dm.Get srt w.managers a n
    some ({ heap := w.heap.set a r.dm, managers := r.managers }, r.low, r.high)

/-- `Set` called through the pointer `a`. -/
def World.Set (w : World) (a : Addr) (recs : List Head) (n : Node) : Option World :=
  match w.heap[a]? with
  | none => none
  | some dm => some { w with heap := w.heap.set a (dm.Set recs n) }

/-- `Finished` called through the pointer `a`. -/
def World.Finished (w : World) (a : Addr) (n : Node) (success : Bool) : Option World :=
  match w.heap[a]? with
  | none => none
  | some dm =>
    let r := dm.Finished w.managers n success
    some { heap := w.heap.set a r.2, managers := r.1 }

/-! ## A concrete sorter -/

/-- The order handed to the sort: descending stamps. -/
def stampGe (a b : Nat × targetRec) : Prop := b.2.stamp ≤ a.2.stamp

instance : DecidableRel stampGe := fun a b => inferInstanceAs (Decidable (b.2.stamp ≤ a.2.stamp))

instance : IsTotal (Nat × targetRec) stampGe := ⟨fun a b => le_total b.2.stamp a.2.stamp⟩

instance : IsTrans (Nat × targetRec) stampGe := ⟨fun _ _ _ h1 h2 => le_trans h2 h1⟩

/-- Insertion sort by descending stamp: one implementation of the contract. -/
def insertionSorter : Sorter where
  run := List.insertionSort stampGe
  perm := List.perm_insertionSort stampGe
  sorted := List.sorted_insertionSort stampGe


/-! ## Observation of a call -/

/-- Number of records that satisfy the condition of `Get` for peer `n`. -/
def eligibleCount (n : Node) (recs : Recs) : Nat :=
  (recs.filter (fun kr => eligible n kr.2)).length

/-- The records, as they are after a call, whose assigned peer the call changed
(`old` and `new` are the map before and after, position by position). -/
def assignedByCall (old new : Recs) : Recs :=
  ((old.zip new).filter (fun x => decide (x.1.2.downloading ≠ x.2.2.downloading))).map Prod.snd


/-- The slice `s` of `Get` after the sort of line 137. -/
def sortedSel (dm : Manager) (srt : Sorter) (n : Node) : List (Nat × targetRec) :=
  srt.run (selectFrom n 0 dm.recs)

/-- The elements `s[0], ..., s[begin]` that the loop of lines 142 to 144 visits. -/
def batch (dm : Manager) (srt : Sorter) (n : Node) : List (Nat × targetRec) :=
  (sortedSel dm srt n).take (beginIdx (sortedSel dm srt n).length + 1)

/-! ## Concrete states used in the examples -/

/-- Peer A of the examples. -/
def peerA : Node := ⟨"A"⟩

/-- Peer B of the examples. -/
def peerB : Node := ⟨"B"⟩

/-- The empty table `managers`. -/
def noManagers : Registry := fun _ => none

/-- An unfinished, unassigned record with retry count 0, sole candidate `p` and
stamp `st`, under the key `k`. -/
def openRec (k : String) (p : Node) (st : Int) : String × targetRec :=
  (k, { node := [p], downloading := none, finished := false, count := 0, stamp := st })

/-- A manager with twelve records eligible for peer A, stamps 1 to 12. -/
def dm12 : Manager :=
  { datfile := "d"
    recs := [openRec "r1" peerA 1, openRec "r2" peerA 2, openRec "r3" peerA 3,
      openRec "r4" peerA 4, openRec "r5" peerA 5, openRec "r6" peerA 6,
      openRec "r7" peerA 7, openRec "r8" peerA 8, openRec "r9" peerA 9,
      openRec "r10" peerA 10, openRec "r11" peerA 11, openRec "r12" peerA 12] }

/-- A manager with three records eligible for peer A, one finished record and
one record that only peer B can supply. -/
def dm3 : Manager :=
  { datfile := "d"
    recs := [openRec "r1" peerA 150, ("r0", finishedRec), openRec "r2" peerA 200,
      openRec "r3" peerB 170, openRec "r4" peerA 120] }

/-- The record `Set` creates for a head reported by `n` (lines 113 to 116). -/
def reportedRec (n : Node) (r : Head) : String × targetRec :=
  (r.Recstr, ⟨[n], none, false, 0, r.Stamp⟩)

/-- The heads of a report whose `Idstr()` key is not among the local keys. -/
def notHeld (keys : List String) (recs : List Head) : List Head :=
  recs.filter (fun r => decide (r.Idstr ∉ keys))

/-- End-to-end example: the local store holds the record with stamp 100. -/
def cacheEx : Cache := { Datfile := "d", keys := ["100_aa"] }

/-- End-to-end example: the heads with stamps 100, 150 and 200 that peer A
reports. -/
def headsEx : List Head :=
  [⟨100, "100_aa", "100<>aa"⟩, ⟨150, "150_bb", "150<>bb"⟩, ⟨200, "200_cc", "200<>cc"⟩]

/-- A head that is not held locally, with the two keys the record package
gives it. -/
def head150 : Head := ⟨150, "150_bb", "150<>bb"⟩

/-- A manager that tracks nothing yet. -/
def dmEmpty : Manager := { datfile := "d", recs := [] }

/-- One failed attempt, as `Finished(p, false)` records it. -/
def bumpCount (r : targetRec) : targetRec := { r with count := r.count + 1 }

/-- The empty manager after the report of `head150` by peer A and one failed
attempt on that record. -/
def dmReported : Manager :=
  { dmEmpty with recs := Recs.modify head150.Recstr bumpCount (dmEmpty.Set [head150] peerA).recs }

/-- A manager registered in the examples: one record assigned to peer A, one
assigned to peer B, one unassigned. -/
def dmBusy : Manager :=
  { datfile := "d"
    recs := [("r1", ⟨[peerA], some peerA, false, 2, 150⟩),
      ("r2", ⟨[peerB], some peerB, false, 0, 170⟩),
      ("r3", ⟨[peerA, peerB], none, false, 1, 200⟩)] }

/-- The table `managers` in which the datfile `d` is registered at address 0. -/
def regD : Registry := noManagers.set "d" 0

/-- One round with a failing peer, as `getWithRange` runs it on a transport
error: `Get(p)`, then `Finished(p, false)`. The state is the table `managers`
and the manager stored at address `self`. -/
def failCycle (srt : Sorter) (self : Addr) (p : Node) (s : Registry × Manager) :
    Registry × Manager :=
  (s.2.Get srt s.1 self p).dm.Finished (s.2.Get srt s.1 self p).managers p false

/-- The state after `k` successive failing rounds. -/
def failCycles (srt : Sorter) (self : Addr) (p : Node) :
    Nat → Registry × Manager → Registry × Manager
  | 0, s => s
  | k + 1, s => failCycle srt self p (failCycles srt self p k s)

/-- A manager with one open record that only peer A can supply. -/
def dmOne : Manager := { datfile := "d", recs := [openRec "r1" peerA 150] }

/-- One round with a delivering peer, as `getWithRange` runs it: `Get(p)`, then
`Finished(p, true)`. The state is the table `managers` and the manager stored
at address `self`. -/
def okCycle (srt : Sorter) (self : Addr) (s : Registry × Manager) (p : Node) :
    Registry × Manager :=
  (s.2.Get srt s.1 self p).dm.Finished (s.2.Get srt s.1 self p).managers p true

/-- The rounds for the peers of a schedule, in order. -/
def okCycles (srt : Sorter) (self : Addr) :
    List Node → Registry × Manager → Registry × Manager
  | [], s => s
  | p :: ps, s => okCycles srt self ps (okCycle srt self s p)

/-- Number of unfinished records. -/
def unfinishedCount (recs : Recs) : Nat :=
  (recs.filter (fun kr => !kr.2.finished)).length

/-- Peer `p` is a candidate of some unfinished record. -/
def servesUnfinished (p : Node) (recs : Recs) : Bool :=
  recs.any (fun kr => !kr.2.finished && decide (p ∈ kr.2.node))

/-- Every round of the schedule is run for a peer that is, at that moment, a
candidate of some unfinished record. -/
def validSchedule (srt : Sorter) (self : Addr) : List Node → Registry × Manager → Prop
  | [], _ => True
  | p :: ps, s =>
    servesUnfinished p s.2.recs = true ∧ validSchedule srt self ps (okCycle srt self s p)

/-- Every unfinished record is unassigned, has a retry count below 5 and has at
least one candidate peer. -/
def readyToFetch (recs : Recs) : Prop :=
  ∀ kr ∈ recs, kr.2.finished = false →
    kr.2.downloading = none ∧ kr.2.count < 5 ∧ kr.2.node ≠ []

/-- A manager with two records that peer A can supply and one that only peer B
can supply, next to a record held locally. -/
def dmTwoPeers : Manager :=
  { datfile := "d"
    recs := [("r0", finishedRec), openRec "r1" peerA 150, openRec "r2" peerB 170,
      openRec "r3" peerA 200] }

/-- The program state at start: no manager allocated, none registered. -/
def world0 : World := { heap := [], managers := noManagers }

/-- A state with the manager `dm3` allocated at address 0 and not registered. -/
def world3 : World := { heap := [dm3], managers := noManagers }

/-- A call on a manager. -/
inductive Call where
  | set (res : List Head) (n : Node)
  | get (srt : Sorter) (n : Node)
  | finished (n : Node) (success : Bool)

/-- Whether the call is a `Set`. -/
def Call.isSet : Call → Bool
  | .set _ _ => true
  | _ => false

/-- Effect of one call on the table `managers` and the manager stored at address
`self`. -/
def runCall (self : Addr) (s : Registry × Manager) : Call → Registry × Manager
  | .set res n => (s.1, s.2.Set res n)
  | .get srt n => ((s.2.Get srt s.1 self n).managers, (s.2.Get srt s.1 self n).dm)
  | .finished n success => s.2.Finished s.1 n success

/-- Effect of a sequence of calls, in order. -/
def runCalls (self : Addr) (s : Registry × Manager) (cs : List Call) : Registry × Manager :=
  cs.foldl (runCall self) s

/-! ## Reachable states and the assignment invariant -/

/-- The states of a manager that `NewManger` and the calls `Set`, `Get` and
`Finished` can produce. The table `managers` is arbitrary at every call: other
managers may have changed it in between. -/
inductive Reachable : Manager → Prop where
  | fresh (ca : Cache) : Reachable (Manager.fresh ca)
  | call (dm : Manager) (ms : Registry) (self : Addr) (c : Call) :
      Reachable dm → Reachable (runCall self (ms, dm) c).2

/-- What the invariant says of one record: the retry count is at most 5, and a
record assigned to a peer is unfinished, has a retry count below 5 and lists
that peer among its candidates. -/
def recOk (r : targetRec) : Prop :=
  r.count ≤ 5 ∧ ∀ q, r.downloading = some q → r.finished = false ∧ r.count < 5 ∧ q ∈ r.node

/-- The assignment invariant of a manager's records. -/
def assignmentInv (recs : Recs) : Prop := ∀ kr ∈ recs, recOk kr.2

/-- Insertion sort of the reversed slice: another implementation of the
contract of the sort, which orders equal stamps the other way round. -/
def insertionSorterRev : Sorter where
  run := fun l => List.insertionSort stampGe l.reverse
  perm := fun l => (List.perm_insertionSort stampGe l.reverse).trans (List.reverse_perm l)
  sorted := fun l => List.sorted_insertionSort stampGe l.reverse

/-- Records with equal stamps, in one iteration order of the map. -/
def dmTies : Manager :=
  { datfile := "d"
    recs := [openRec "r1" peerA 150, openRec "r2" peerA 150, openRec "r3" peerA 120,
      openRec "r4" peerA 200, openRec "r5" peerA 150, openRec "r6" peerA 120,
      openRec "r7" peerB 300] }

/-- The records of `dmTies` in another iteration order. -/
def dmTiesPerm : Manager :=
  { datfile := "d"
    recs := [openRec "r7" peerB 300, openRec "r6" peerA 120, openRec "r5" peerA 150,
      openRec "r4" peerA 200, openRec "r3" peerA 120, openRec "r2" peerA 150,
      openRec "r1" peerA 150] }

/-- The calls of the example in which a delivered record is reported again:
peer A reports `head150`, is given it, and delivers it. -/
def callsDelivered : List Call :=
  [Call.set [head150] peerA, Call.get insertionSorter peerA, Call.finished peerA true]

/-- The stamps of the records eligible for peer `n`, in map order. -/
def eligibleStamps (n : Node) (recs : Recs) : List Int :=
  (recs.filter (fun kr => eligible n kr.2)).map (fun kr => kr.2.stamp)

/-! ## `getWithRange` -/

/-- Outcome of the fetch of one batch in `getWithRange`: `none` when `n.Talk`
returns an error, `some k` when it returns lines of which `k` pass `CheckData`
(the value of `okcount` after the loop of lines 230 to 235). -/
abbrev Fetch := Option Nat

/-- What `getWithRange` leaves behind: the returned flag, the table `managers`
and the manager, and the stamp ranges of the `/get` requests it issued, in
order. -/
structure PullResult where
  got : Bool
  managers : Registry
  dm : Manager
  requests : List (Int × Int)

/-- The loop of `getWithRange` for peer `n` and the manager at address `self`.
The fetch of round `i` has the outcome `talk i`. The first argument bounds the
number of rounds; `none` stands for a loop that has not returned within it. -/
def getWithRangeLoop (srt : Sorter) (self : Addr) (n : Node) (talk : Nat → Fetch) :
    Nat → Nat → Bool → List (Int × Int) → Registry × Manager → Option PullResult
  | 0, _, _, _, _ => none
  | fuel + 1, round, got, reqs, s =>
    if (s.2.Get srt s.1 self n).low ≤ 0 then
      some ⟨got, (s.2.Get srt s.1 self n).managers, (s.2.Get srt s.1 self n).dm, reqs⟩
    else
      match talk round with
      | none =>
        some ⟨false, (failCycle srt self n s).1, (failCycle srt self n s).2,
          reqs ++ [((s.2.Get srt s.1 self n).low, (s.2.Get srt s.1 self n).high)]⟩
      | some okcount =>
        getWithRangeLoop srt self n talk fuel (round + 1) (decide (okcount > 0))
          (reqs ++ [((s.2.Get srt s.1 self n).low, (s.2.Get srt s.1 self n).high)])
          (okCycle srt self s n)

/-- `getWithRange`. Every round that does not end the loop finishes a record,
so one round more than there are unfinished records is enough. -/
def getWithRange (srt : Sorter) (self : Addr) (n : Node) (talk : Nat → Fetch)
    (s : Registry × Manager) : Option PullResult :=
  getWithRangeLoop srt self n talk (unfinishedCount s.2.recs + 1) 0 false [] s

/-- Fetches of the example: the first batch stores three records, every later
one stores none. -/
def talkStoresOnce : Nat → Fetch := fun i => if i = 0 then some 3 else some 0

/-- Fetches of the example: the first batch stores three records, the next
fetch fails in the transport. -/
def talkThenFails : Nat → Fetch := fun i => if i = 0 then some 3 else none

/-- A manager whose one open record has the stamp 0. -/
def dmStampZero : Manager := { datfile := "d", recs := [openRec "r1" peerA 0] }

/-! ## `headWithRange` -/

/-- Value of an `int64` expression whose mathematical value is `x`. -/
def wrapInt64 (x : Int) : Int := (x + 2 ^ 63) % 2 ^ 64 - 2 ^ 63

/-- Lines 187 to 193 of `headWithRange`: the stamp bound of the `/head` request.
`now` is `time.Now().Unix()`, `newest` is the stamp of the head returned by
`recentlist.Newest` when it returns no error. -/
def headBegin (now GetRange : Int) (newest : Option Int) : Int :=
  let begin := match newest with
    | some stamp => wrapInt64 (stamp - GetRange)
    | none => wrapInt64 (now - GetRange)
  if GetRange = 0 ∨ begin < 0 then 0 else begin

/-- The lookup table of the package `bbs/node/manager`: datfile to the peers
known to serve it. -/
abbrev Table := String → List Node

/-- Modelled from the spec: `manager.AppendToTable` (and `AppendToTableTX`), of
the package `bbs/node/manager` that is outside the sources at hand: "remember
peer X serves datfile D". -/
def AppendToTable (t : Table) (datfile : String) (n : Node) : Table :=
  fun d => if d = datfile then (if n ∈ t d then t d else t d ++ [n]) else t d

/-- Modelled from the spec: `manager.RemoveFromTable`, of the package
`bbs/node/manager` that is outside the sources at hand: "forget" that peer X
serves datfile D. -/
def RemoveFromTable (t : Table) (datfile : String) (n : Node) : Table :=
  fun d => if d = datfile then (t d).filter (fun x => decide (x ≠ n)) else t d

/-- Modelled from the spec: `manager.RemoveFromAllTable`, of the package
`bbs/node/manager` that is outside the sources at hand: forget peer X for every
datfile. -/
def RemoveFromAllTable (t : Table) (n : Node) : Table :=
  fun d => (t d).filter (fun x => decide (x ≠ n))

/-- The condition of line 200 negated: the `/have` call returned no error and a
first line `YES`. -/
def haveYes : Option (List String) → Bool
  | some (x :: _) => x == "YES"
  | _ => false

/-- What `headWithRange` leaves behind: the returned flag, the lookup table and
the manager. -/
structure ProbeResult where
  found : Bool
  table : Table
  dm : Manager

/-- Lines 194 to 209 of `headWithRange` for peer `n` and the cache of `datfile`.
`headRes` is the outcome of the `/head` call and `haveRes` the outcome of the
`/have` call (`none` for an error); `parse` is `record.ParseHeadResponse`, which
is outside the sources at hand. -/
def headWithRange (parse : List String → List Head) (headRes haveRes : Option (List String))
    (datfile : String) (table : Table) (n : Node) (dm : Manager) : ProbeResult :=
  match headRes with
  | none => ⟨false, table, dm⟩
  | some res =>
    if res.length = 0 then
      if !haveYes haveRes then ⟨false, RemoveFromTable table datfile n, dm⟩
      else ⟨false, AppendToTable table datfile n, dm⟩
    else ⟨true, AppendToTable table datfile n, dm.Set (parse res) n⟩

/-- A lookup table in which peer A is known for the datfile `d`. -/
def tableA : Table := fun d => if d = "d" then [peerA] else []

/-- The empty lookup table. -/
def tableEmpty : Table := fun _ => []

/-! ## The recent list (`bbs/recentlist/recentlist.go`) -/

/-- The bucket `recent` of the database: key to stored value. As for the map of
a manager, the list carries every entry once and its order is arbitrary; the
cursor of `RemoveOlds` visits the entries in the order of the list. -/
abbrev Bucket := List (String × String)

/-- Line 147 of `RemoveOlds`: the cutoff stamp `t`. -/
def cutoff (now RecentRange : Int) : Int := wrapInt64 (now - RecentRange)

/-- The cursor loop of `RemoveOlds` (lines 154 to 165): `none` when a value does
not decode, and otherwise the bucket without the entries it deleted. `decode`
stands for `json.Unmarshal` into a `record.Head` followed by the read of its
field `Stamp`. -/
def removeOldsLoop (decode : String → Option Int) (t : Int) : Bucket → Option Bucket
  | [] => some []
  | (k, v) :: rest =>
    match decode v with
    | none => none
    | some stamp =>
      if stamp > t then (removeOldsLoop decode t rest).map (fun b => (k, v) :: b)
      else removeOldsLoop decode t rest

/-- `RemoveOlds`, on the database in which the bucket `recent` is `db` (`none`
when the bucket does not exist). An error returned inside `db.DB.Update` rolls
the transaction back, so the bucket is then as before. -/
def RemoveOlds (decode : String → Option Int) (RecentRange now : Int) (db : Option Bucket) :
    Option Bucket :=
  if RecentRange ≤ 0 then db
  else
    match db with
    | none => none
    | some b =>
      match removeOldsLoop decode (cutoff now RecentRange) b with
      | none => some b
      | some b' => some b'

/-- What `get` reads of the record that `record.Make` makes from one response
line: the datfile, the key `Head.ToKey()` and the stored form of the head, and
the tags `strings.Fields(strings.TrimSpace(rec.GetBodyValue("tag", "")))`. The
package `bbs/record` is outside the sources at hand. -/
structure RecentRec where
  Datfile : String
  key : String
  value : String
  tags : List String
deriving DecidableEq, Repr

/-- The state `get` works on: the bucket `recent`, the lookup table, and the
calls of `suggest.AddString` made so far (datfile and tags). -/
structure RecentState where
  bucket : Bucket
  table : Table
  suggest : List (String × List String)

/-- Modelled from the spec: `db.Put` of the package `bbs/db`, which is outside
the sources at hand: a keyed write into the bucket, which replaces the value
under the key or adds the entry. -/
def Bucket.put (k v : String) : Bucket → Bucket
  | [] => [(k, v)]
  | (k', v') :: rest => if k' = k then (k', v) :: rest else (k', v') :: Bucket.put k v rest

/-- Modelled from the spec: `find` (lines 127 to 140) with `db.Count` of the
package `bbs/db`, which is outside the sources at hand: whether an entry with
the key exists. It runs in a read transaction of its own (`db.DB.View`), so it
sees the bucket as it was committed. -/
def find (committed : Bucket) (k : String) : Bool :=
  committed.any (fun kv => decide (kv.1 = k))

/-- `appendHead` inside the transaction of `get`: `committed` is the bucket
before the transaction, `b` the bucket inside it. -/
def appendHead (committed : Bucket) (b : Bucket) (rec : RecentRec) : Bucket :=
  if find committed rec.key then b else b.put rec.key rec.value

/-- Body of the loop of `get` (lines 205 to 216) for one response line; `parse`
is `record.Make` followed by the reads of the structure `RecentRec`. -/
def addLine (parse : String → Option RecentRec) (committed : Bucket) (n : Node)
    (st : RecentState) (line : String) : RecentState :=
  match parse line with
  | none => st
  | some rec =>
    if rec.tags.length > 0 then
      ⟨appendHead committed st.bucket rec, AppendToTable st.table rec.Datfile n,
        st.suggest ++ [(rec.Datfile, rec.tags)]⟩
    else ⟨appendHead committed st.bucket rec, st.table, st.suggest⟩

/-- `get` of the recent list for the peer `n`; `talkRes` is the outcome of the
`/recent` call (`none` for an error). -/
def get (parse : String → Option RecentRec) (n : Node) (talkRes : Option (List String))
    (st : RecentState) : RecentState :=
  match talkRes with
  | none => ⟨st.bucket, RemoveFromAllTable st.table n, st.suggest⟩
  | some res => res.foldl (addLine parse st.bucket n) st

/-- Values of the example bucket and their stamps. -/
def decodeEx : String → Option Int := fun v =>
  if v = "old" then some 900 else if v = "new" then some 990 else none

/-- Example bucket: cutoff 950, one entry 50 below it and one 40 above it, of
two datfiles. -/
def bucketEx : Bucket := [("d1_900_aa", "old"), ("d2_990_bb", "new")]

/-- Lines of the example response: one record without tags, one line that does
not parse, one record with a tag. -/
def parseEx : String → Option RecentRec := fun line =>
  if line = "plain" then some ⟨"d", "d_100_aa", "v1", []⟩
  else if line = "tagged" then some ⟨"e", "e_200_bb", "v2", ["news"]⟩
  else none

/-- The state of the example: nothing stored, no peer known. -/
def recentEmpty : RecentState := ⟨[], tableEmpty, []⟩

/-- Whether the stored value `v` decodes to a stamp greater than `t`. -/
def newerThan (decode : String → Option Int) (t : Int) (v : String) : Bool :=
  match decode v with
  | some stamp => decide (stamp > t)
  | none => false

/-- The calls of the example in which a given-up record is reported again: peer
A reports `head150` and then fails five times to deliver it. -/
def callsGivenUp : List Call :=
  [Call.set [head150] peerA,
    Call.get insertionSorter peerA, Call.finished peerA false,
    Call.get insertionSorter peerA, Call.finished peerA false,
    Call.get insertionSorter peerA, Call.finished peerA false,
    Call.get insertionSorter peerA, Call.finished peerA false,
    Call.get insertionSorter peerA, Call.finished peerA false]
/-! ## Lemmas on the selection and the marking -/

theorem selectFrom_length (n : Node) (off : Nat) (recs : Recs) :
    (selectFrom n off recs).length = eligibleCount n recs := by
  induction recs generalizing off with
  | nil => rfl
  | cons kr rest ih =>
    obtain ⟨k, r⟩ := kr
    simp only [selectFrom, eligibleCount, List.filter_cons]
    split
    · simp [ih (off + 1), eligibleCount]
    · simpa [eligibleCount] using ih (off + 1)

theorem mem_selectFrom {n : Node} {off : Nat} {recs : Recs} {i : Nat} {r : targetRec} :
    (i, r) ∈ selectFrom n off recs ↔
      ∃ j k, i = off + j ∧ recs[j]? = some (k, r) ∧ eligible n r = true := by
  induction recs generalizing off with
  | nil => simp [selectFrom]
  | cons kr rest ih =>
    obtain ⟨k0, r0⟩ := kr
    constructor
    · intro h
      simp only [selectFrom] at h
      split at h
      · rename_i he
        rcases List.mem_cons.1 h with h | h
        · cases h
          exact ⟨0, k0, rfl, by simp, he⟩
        · obtain ⟨j, k, hj, hg, hel⟩ := ih.1 h
          exact ⟨j + 1, k, by omega, by simpa using hg, hel⟩
      · obtain ⟨j, k, hj, hg, hel⟩ := ih.1 h
        exact ⟨j + 1, k, by omega, by simpa using hg, hel⟩
    · rintro ⟨j, k, hj, hg, hel⟩
      simp only [selectFrom]
      cases j with
      | zero =>
        simp at hg
        obtain ⟨rfl, rfl⟩ := hg
        simp [hel, hj]
      | succ j =>
        have : (i, r) ∈ selectFrom n (off + 1) rest :=
          ih.2 ⟨j, k, by omega, by simpa using hg, hel⟩
        split
        · exact List.mem_cons_of_mem _ this
        · exact this

theorem selectFrom_ge {n : Node} {off : Nat} {recs : Recs} {x : Nat × targetRec}
    (h : x ∈ selectFrom n off recs) : off ≤ x.1 := by
  obtain ⟨i, r⟩ := x
  obtain ⟨j, _, hj, _, _⟩ := mem_selectFrom.1 h
  simp only; omega

theorem selectFrom_fst_nodup (n : Node) (off : Nat) (recs : Recs) :
    ((selectFrom n off recs).map Prod.fst).Nodup := by
  induction recs generalizing off with
  | nil => simp [selectFrom]
  | cons kr rest ih =>
    obtain ⟨k0, r0⟩ := kr
    simp only [selectFrom]
    split
    · simp only [List.map_cons, List.nodup_cons]
      refine ⟨?_, ih (off + 1)⟩
      intro hmem
      obtain ⟨x, hx, hxe⟩ := List.mem_map.1 hmem
      have := selectFrom_ge hx
      omega
    · exact ih (off + 1)

theorem markFrom_length (n : Node) (ch : List Nat) (off : Nat) (recs : Recs) :
    (markFrom n ch off recs).length = recs.length := by
  induction recs generalizing off with
  | nil => rfl
  | cons kr rest ih =>
    obtain ⟨k0, r0⟩ := kr
    simp [markFrom, ih]

theorem markFrom_getElem? (n : Node) (ch : List Nat) (off : Nat) (recs : Recs) (j : Nat) :
    (markFrom n ch off recs)[j]? =
      (recs[j]?).map (fun kr =>
        if off + j ∈ ch then (kr.1, { kr.2 with downloading := some n }) else kr) := by
  induction recs generalizing off j with
  | nil => simp [markFrom]
  | cons kr rest ih =>
    obtain ⟨k0, r0⟩ := kr
    cases j with
    | zero => simp [markFrom]
    | succ j =>
      simp only [markFrom, List.getElem?_cons_succ]
      rw [ih (off + 1) j]
      have : off + 1 + j = off + (j + 1) := by omega
      rw [this]

theorem mem_assignedByCall {old new : Recs} {x : String × targetRec} :
    x ∈ assignedByCall old new ↔
      ∃ (i : Nat) (a : String × targetRec),
        old[i]? = some a ∧ new[i]? = some x ∧ a.2.downloading ≠ x.2.downloading := by
  unfold assignedByCall
  constructor
  · intro h
    obtain ⟨ab, hab, rfl⟩ := List.mem_map.1 h
    obtain ⟨hmem, hne⟩ := List.mem_filter.1 hab
    obtain ⟨i, hi⟩ := List.mem_iff_getElem?.1 hmem
    obtain ⟨h1, h2⟩ := List.getElem?_zip_eq_some.1 hi
    exact ⟨i, ab.1, h1, h2, by simpa using hne⟩
  · rintro ⟨i, a, h1, h2, hne⟩
    refine List.mem_map.2 ⟨(a, x), List.mem_filter.2 ⟨?_, by simpa using hne⟩, rfl⟩
    exact List.mem_iff_getElem?.2 ⟨i, List.getElem?_zip_eq_some.2 ⟨h1, h2⟩⟩

theorem changed_markFrom_length (n : Node) (ch : List Nat) (off : Nat) (recs : Recs)
    (h : ∀ j kr, recs[j]? = some kr → off + j ∈ ch → kr.2.downloading ≠ some n) :
    (assignedByCall recs (markFrom n ch off recs)).length =
      ((List.range' off recs.length).filter (fun i => decide (i ∈ ch))).length := by
  induction recs generalizing off with
  | nil => simp [assignedByCall, markFrom]
  | cons kr rest ih =>
    obtain ⟨k0, r0⟩ := kr
    have hrest : ∀ j kr, rest[j]? = some kr → off + 1 + j ∈ ch → kr.2.downloading ≠ some n := by
      intro j kr hj hm
      exact h (j + 1) kr (by simpa using hj) (by have : off + (j + 1) = off + 1 + j := by omega
                                                 rw [this]; exact hm)
    have ih' := ih (off + 1) hrest
    simp only [assignedByCall, List.length_map] at ih' ⊢
    simp only [markFrom, List.zip_cons_cons, List.length_cons, List.range'_succ,
      List.filter_cons]
    by_cases hoff : off ∈ ch
    · have h0 : r0.downloading ≠ some n := h 0 (k0, r0) (by simp) (by simpa using hoff)
      simpa [hoff, h0] using ih'
    · simpa [hoff] using ih'

theorem filter_range_mem_length (ch : List Nat) (len : Nat) (hnd : ch.Nodup)
    (hlt : ∀ i ∈ ch, i < len) :
    ((List.range' 0 len).filter (fun i => decide (i ∈ ch))).length = ch.length := by
  apply List.Perm.length_eq
  apply (List.perm_ext_iff_of_nodup ?_ hnd).2
  · intro a
    simp only [List.mem_filter, List.mem_range'_1, decide_eq_true_eq]
    constructor
    · exact fun h => h.2
    · exact fun h => ⟨⟨Nat.zero_le _, by simpa using hlt a h⟩, h⟩
  · exact (List.nodup_range' 0 len).filter _

/-! ## Lemmas on `Get` -/

theorem sortedSel_length (dm : Manager) (srt : Sorter) (n : Node) :
    (sortedSel dm srt n).length = eligibleCount n dm.recs := by
  unfold sortedSel
  rw [(srt.perm _).length_eq, selectFrom_length]

theorem mem_sortedSel {dm : Manager} {srt : Sorter} {n : Node} {x : Nat × targetRec} :
    x ∈ sortedSel dm srt n ↔ x ∈ selectFrom n 0 dm.recs :=
  (srt.perm _).mem_iff

theorem beginIdx_lt {len : Nat} (h : 0 < len) : beginIdx len < len := by
  unfold beginIdx
  split <;> omega

theorem batch_length (dm : Manager) (srt : Sorter) (n : Node)
    (h : 0 < eligibleCount n dm.recs) :
    (batch dm srt n).length = beginIdx (eligibleCount n dm.recs) + 1 := by
  unfold batch
  rw [List.length_take, sortedSel_length]
  have := beginIdx_lt h
  omega

theorem batch_fst_nodup (dm : Manager) (srt : Sorter) (n : Node) :
    ((batch dm srt n).map Prod.fst).Nodup := by
  have h1 : ((sortedSel dm srt n).map Prod.fst).Nodup :=
    ((srt.perm _).map Prod.fst).nodup_iff.2 (selectFrom_fst_nodup n 0 dm.recs)
  exact h1.sublist ((List.take_sublist _ _).map Prod.fst)

theorem mem_batch_old {dm : Manager} {srt : Sorter} {n : Node} {x : Nat × targetRec}
    (h : x ∈ batch dm srt n) :
    ∃ k, dm.recs[x.1]? = some (k, x.2) ∧ eligible n x.2 = true := by
  have h1 : x ∈ selectFrom n 0 dm.recs := mem_sortedSel.1 (List.mem_of_mem_take h)
  obtain ⟨i, r⟩ := x
  obtain ⟨j, k, hj, hg, he⟩ := mem_selectFrom.1 h1
  have : i = j := by omega
  subst this
  exact ⟨k, hg, he⟩

theorem eligible_downloading {n : Node} {r : targetRec} (h : eligible n r = true) :
    r.downloading = none := by
  simp only [eligible, Bool.and_eq_true, Option.isNone_iff_eq_none] at h
  exact h.1.2

theorem get_of_pos (dm : Manager) (srt : Sorter) (ms : Registry) (self : Addr) (n : Node)
    (h : 0 < eligibleCount n dm.recs) :
    dm.Get srt ms self n =
      { managers := ms.set dm.datfile self
        dm := { dm with recs := markFrom n ((batch dm srt n).map Prod.fst) 0 dm.recs }
        low := stampAt (sortedSel dm srt n) (beginIdx (eligibleCount n dm.recs))
        high := stampAt (sortedSel dm srt n) 0 } := by
  have hl : ¬ (selectFrom n 0 dm.recs).length = 0 := by
    rw [selectFrom_length]; omega
  simp only [Manager.Get, hl, if_false, batch, sortedSel]
  rw [(srt.perm _).length_eq, selectFrom_length]

theorem get_of_zero (dm : Manager) (srt : Sorter) (ms : Registry) (self : Addr) (n : Node)
    (h : eligibleCount n dm.recs = 0) :
    dm.Get srt ms self n =
      { managers := (dm.checkFinished ms).1, dm := (dm.checkFinished ms).2,
        low := -1, high := -1 } := by
  have hl : (selectFrom n 0 dm.recs).length = 0 := by
    rw [selectFrom_length]; exact h
  simp only [Manager.Get, hl, if_true]

theorem checkFinished_getElem? (dm : Manager) (ms : Registry) (i : Nat) :
    (dm.checkFinished ms).2.recs[i]? = dm.recs[i]? ∨
      (dm.checkFinished ms).2.recs[i]? = (dm.recs[i]?).map (fun kr => (kr.1, giveUp kr.2)) := by
  unfold Manager.checkFinished
  split
  · exact Or.inl rfl
  · right
    simp [List.getElem?_map]

theorem giveUp_fields (r : targetRec) :
    (giveUp r).node = r.node ∧ (giveUp r).downloading = r.downloading ∧
      (giveUp r).count = r.count ∧ (giveUp r).stamp = r.stamp ∧
      ((giveUp r).finished = true ↔ (r.finished = true ∨ 5 ≤ r.count)) := by
  unfold giveUp
  split
  · rename_i h
    simp [h]
  · rename_i h
    simp [h]

/-- Position by position: what `Get` does to the record at position `i` when
the selection is not empty. -/
theorem get_getElem?_of_pos (dm : Manager) (srt : Sorter) (ms : Registry) (self : Addr)
    (n : Node) (h : 0 < eligibleCount n dm.recs) (i : Nat) :
    (dm.Get srt ms self n).dm.recs[i]? =
      (dm.recs[i]?).map (fun kr =>
        if i ∈ (batch dm srt n).map Prod.fst then (kr.1, { kr.2 with downloading := some n })
        else kr) := by
  rw [get_of_pos dm srt ms self n h]
  simp only
  rw [markFrom_getElem?, Nat.zero_add]

theorem mem_batch_fst {dm : Manager} {srt : Sorter} {n : Node} {i : Nat}
    (h : i ∈ (batch dm srt n).map Prod.fst) :
    ∃ k r, (i, r) ∈ batch dm srt n ∧ dm.recs[i]? = some (k, r) ∧ eligible n r = true := by
  obtain ⟨x, hx, rfl⟩ := List.mem_map.1 h
  obtain ⟨k, hk, he⟩ := mem_batch_old hx
  exact ⟨k, x.2, hx, hk, he⟩

theorem assignedByCall_get_length (dm : Manager) (srt : Sorter) (ms : Registry) (self : Addr)
    (n : Node) (h : 0 < eligibleCount n dm.recs) :
    (assignedByCall dm.recs (dm.Get srt ms self n).dm.recs).length =
      beginIdx (eligibleCount n dm.recs) + 1 := by
  rw [get_of_pos dm srt ms self n h]
  simp only
  rw [changed_markFrom_length, filter_range_mem_length _ _ (batch_fst_nodup dm srt n),
    List.length_map, batch_length dm srt n h]
  · intro i hi
    obtain ⟨k, r, _, hg, _⟩ := mem_batch_fst hi
    by_contra hlt
    rw [List.getElem?_eq_none (by omega)] at hg
    cases hg
  · intro j kr hj hm
    rw [Nat.zero_add] at hm
    obtain ⟨k, r, _, hg, he⟩ := mem_batch_fst hm
    rw [hj] at hg
    cases hg
    simp [eligible_downloading he]

theorem mem_assignedByCall_get {dm : Manager} {srt : Sorter} {ms : Registry} {self : Addr}
    {n : Node} (h : 0 < eligibleCount n dm.recs) {x : String × targetRec} :
    x ∈ assignedByCall dm.recs (dm.Get srt ms self n).dm.recs ↔
      ∃ i k r, (i, r) ∈ batch dm srt n ∧ dm.recs[i]? = some (k, r) ∧
        x = (k, { r with downloading := some n }) := by
  rw [mem_assignedByCall]
  constructor
  · rintro ⟨i, a, h1, h2, hne⟩
    rw [get_getElem?_of_pos dm srt ms self n h, h1] at h2
    simp only [Option.map_some', Option.some.injEq] at h2
    by_cases hi : i ∈ (batch dm srt n).map Prod.fst
    · rw [if_pos hi] at h2
      obtain ⟨k, r, hb, hg, _⟩ := mem_batch_fst hi
      rw [h1] at hg
      cases hg
      exact ⟨i, k, r, hb, h1, h2.symm⟩
    · rw [if_neg hi] at h2
      subst h2
      exact absurd rfl hne
  · rintro ⟨i, k, r, hb, hg, rfl⟩
    have hi : i ∈ (batch dm srt n).map Prod.fst := List.mem_map.2 ⟨(i, r), hb, rfl⟩
    obtain ⟨_, _, he⟩ := mem_batch_old hb
    refine ⟨i, (k, r), hg, ?_, ?_⟩
    · rw [get_getElem?_of_pos dm srt ms self n h, hg]
      simp [hi]
    · have hd : r.downloading = none := eligible_downloading he
      simp [hd]

theorem checkFinished_downloading (dm : Manager) (ms : Registry) (i : Nat)
    (a b : String × targetRec) (h1 : dm.recs[i]? = some a)
    (h2 : (dm.checkFinished ms).2.recs[i]? = some b) :
    b.1 = a.1 ∧ b.2.node = a.2.node ∧ b.2.downloading = a.2.downloading ∧
      b.2.count = a.2.count ∧ b.2.stamp = a.2.stamp ∧
      (a.2.finished = true → b.2.finished = true) ∧
      (b.2.finished = true → a.2.finished = true ∨ 5 ≤ a.2.count) := by
  rcases checkFinished_getElem? dm ms i with h | h
  · rw [h, h1] at h2
    cases h2
    simp only [true_and, imp_self]
    exact Or.inl
  · rw [h, h1] at h2
    simp only [Option.map_some', Option.some.injEq] at h2
    subst h2
    obtain ⟨g1, g2, g3, g4, g5⟩ := giveUp_fields a.2
    exact ⟨rfl, g1, g2, g3, g4, fun hf => g5.2 (Or.inl hf), g5.1⟩

theorem assignedByCall_get_zero (dm : Manager) (srt : Sorter) (ms : Registry) (self : Addr)
    (n : Node) (h : eligibleCount n dm.recs = 0) :
    assignedByCall dm.recs (dm.Get srt ms self n).dm.recs = [] := by
  rw [get_of_zero dm srt ms self n h]
  apply List.eq_nil_iff_forall_not_mem.2
  intro x hx
  obtain ⟨i, a, h1, h2, hne⟩ := mem_assignedByCall.1 hx
  exact hne (checkFinished_downloading dm ms i a x h1 h2).2.2.1.symm

theorem eligible_iff (n : Node) (r : targetRec) :
    eligible n r = true ↔
      (n ∈ r.node ∧ r.finished = false ∧ r.downloading = none ∧ r.count < 5) := by
  simp [eligible, and_assoc]

theorem eligibleCount_eq_zero {n : Node} {recs : Recs} :
    eligibleCount n recs = 0 ↔ ∀ kr ∈ recs, eligible n kr.2 = false := by
  simp [eligibleCount, List.filter_eq_nil_iff]

theorem checkFinished_length (dm : Manager) (ms : Registry) :
    (dm.checkFinished ms).2.recs.length = dm.recs.length := by
  unfold Manager.checkFinished
  split <;> simp

theorem get_length (dm : Manager) (srt : Sorter) (ms : Registry) (self : Addr) (n : Node) :
    (dm.Get srt ms self n).dm.recs.length = dm.recs.length := by
  rcases Nat.eq_zero_or_pos (eligibleCount n dm.recs) with h | h
  · rw [get_of_zero dm srt ms self n h]
    exact checkFinished_length dm ms
  · rw [get_of_pos dm srt ms self n h]
    exact markFrom_length _ _ _ _

theorem mem_batch_iff {dm : Manager} {srt : Sorter} {n : Node} {x : Nat × targetRec} :
    x ∈ batch dm srt n ↔
      ∃ j, j ≤ beginIdx (sortedSel dm srt n).length ∧ (sortedSel dm srt n)[j]? = some x := by
  unfold batch
  rw [List.mem_iff_getElem?]
  constructor
  · rintro ⟨j, hj⟩
    rw [List.getElem?_take] at hj
    split at hj
    · exact ⟨j, by omega, hj⟩
    · cases hj
  · rintro ⟨j, hj, hg⟩
    exact ⟨j, by rw [List.getElem?_take, if_pos (by omega)]; exact hg⟩

theorem sorted_getElem?_le {srt : Sorter} {l : List (Nat × targetRec)} {i j : Nat}
    {u v : Nat × targetRec} (hi : (srt.run l)[i]? = some u) (hj : (srt.run l)[j]? = some v)
    (hij : i ≤ j) : v.2.stamp ≤ u.2.stamp := by
  obtain ⟨hi', rfl⟩ := List.getElem?_eq_some_iff.1 hi
  obtain ⟨hj', rfl⟩ := List.getElem?_eq_some_iff.1 hj
  rcases Nat.eq_or_lt_of_le hij with h | h
  · subst h
    exact le_refl _
  · exact List.pairwise_iff_getElem.1 (srt.sorted l) i j hi' hj' h

theorem stampAt_eq {s : List (Nat × targetRec)} {i : Nat} {x : Nat × targetRec}
    (h : s[i]? = some x) : stampAt s i = x.2.stamp := by
  simp [stampAt, h]

/-! ## The batch chosen by `Get` -/

/-- C1 (as stated, refuted): with twelve records eligible for peer A, stamps 1
to 12, `Get` assigns seven records, not six, and they are the ones with the
highest stamps (6 to 12), not the lowest. -/
theorem get_twelve_assigns_seven :
    eligibleCount peerA dm12.recs = 12 ∧
    (assignedByCall dm12.recs (dm12.Get insertionSorter noManagers 0 peerA).dm.recs).length
      ≠ 12 / 2 ∧
    (assignedByCall dm12.recs (dm12.Get insertionSorter noManagers 0 peerA).dm.recs).map
      (fun kr => kr.2.stamp) = [6, 7, 8, 9, 10, 11, 12] := by
  decide

/-- C1 (amended): with `n` records eligible for peer `p`, `Get` assigns all of
them when `n ≤ 5` (afterwards none is eligible), and when `n > 5` it assigns
exactly `n / 2 + 1` records; every record it assigns becomes assigned to `p`,
and the assigned records are the head of the descending order: no record left
eligible has a stamp above the stamp of an assigned one. -/
theorem get_batching_rule (dm : Manager) (srt : Sorter) (ms : Registry) (self : Addr)
    (p : Node) :
    (assignedByCall dm.recs (dm.Get srt ms self p).dm.recs).length =
      (if eligibleCount p dm.recs ≤ 5 then eligibleCount p dm.recs
       else eligibleCount p dm.recs / 2 + 1) ∧
    (∀ x ∈ assignedByCall dm.recs (dm.Get srt ms self p).dm.recs, x.2.downloading = some p) ∧
    (eligibleCount p dm.recs ≤ 5 →
      ∀ y ∈ (dm.Get srt ms self p).dm.recs, eligible p y.2 = false) ∧
    (∀ x ∈ assignedByCall dm.recs (dm.Get srt ms self p).dm.recs,
      ∀ y ∈ (dm.Get srt ms self p).dm.recs, eligible p y.2 = true → y.2.stamp ≤ x.2.stamp) := by
  rcases Nat.eq_zero_or_pos (eligibleCount p dm.recs) with h0 | hpos
  · have hnil := assignedByCall_get_zero dm srt ms self p h0
    refine ⟨by simp [hnil, h0], by simp [hnil], ?_, by simp [hnil]⟩
    intro _ y hy
    obtain ⟨i, hi⟩ := List.mem_iff_getElem?.1 hy
    have hlen := get_length dm srt ms self p
    obtain ⟨hlt, _⟩ := List.getElem?_eq_some_iff.1 hi
    have hlt' : i < dm.recs.length := by omega
    have ha : dm.recs[i]? = some dm.recs[i] := List.getElem?_eq_getElem hlt'
    rw [get_of_zero dm srt ms self p h0] at hi
    obtain ⟨_, g1, g2, g3, _, g5, _⟩ := checkFinished_downloading dm ms i _ y ha hi
    have hold : eligible p dm.recs[i].2 = false :=
      eligibleCount_eq_zero.1 h0 _ (List.getElem_mem hlt')
    by_contra hne
    have hy' : eligible p y.2 = true := by simpa using hne
    rw [eligible_iff] at hy'
    have : eligible p dm.recs[i].2 = true := by
      rw [eligible_iff]
      refine ⟨g1 ▸ hy'.1, ?_, g2 ▸ hy'.2.2.1, g3 ▸ hy'.2.2.2⟩
      by_contra hf
      have := g5 (by simpa using hf)
      rw [hy'.2.1] at this
      cases this
    rw [hold] at this
    cases this
  · have hsplit : ∀ y ∈ (dm.Get srt ms self p).dm.recs, eligible p y.2 = true →
        ∃ j, (j, y.2) ∈ sortedSel dm srt p ∧ (j, y.2) ∉ batch dm srt p := by
      intro y hy he
      obtain ⟨j, hj⟩ := List.mem_iff_getElem?.1 hy
      rw [get_getElem?_of_pos dm srt ms self p hpos] at hj
      obtain ⟨a, ha, hya⟩ := Option.map_eq_some'.1 hj
      by_cases hjc : j ∈ (batch dm srt p).map Prod.fst
      · rw [if_pos hjc] at hya
        subst hya
        have := eligible_downloading he
        cases this
      · rw [if_neg hjc] at hya
        subst hya
        refine ⟨j, mem_sortedSel.2 (mem_selectFrom.2 ⟨j, a.1, by omega, ha, he⟩), ?_⟩
        exact fun hb => hjc (List.mem_map.2 ⟨_, hb, rfl⟩)
    refine ⟨?_, ?_, ?_, ?_⟩
    · rw [assignedByCall_get_length dm srt ms self p hpos]
      unfold beginIdx
      split_ifs <;> omega
    · intro x hx
      obtain ⟨i, k, r, _, _, rfl⟩ := (mem_assignedByCall_get hpos).1 hx
      rfl
    · intro hle y hy
      by_contra hne
      have he : eligible p y.2 = true := by simpa using hne
      obtain ⟨j, hs, hb⟩ := hsplit y hy he
      apply hb
      unfold batch
      have hlen := sortedSel_length dm srt p
      have hb5 : beginIdx (sortedSel dm srt p).length + 1 = (sortedSel dm srt p).length := by
        unfold beginIdx
        rw [hlen]
        split_ifs <;> omega
      rw [hb5, List.take_length]
      exact hs
    · intro x hx y hy he
      obtain ⟨i, k, r, hb, _, rfl⟩ := (mem_assignedByCall_get hpos).1 hx
      obtain ⟨j, hs, hnb⟩ := hsplit y hy he
      obtain ⟨ji, hji, hgi⟩ := mem_batch_iff.1 hb
      obtain ⟨jj, hgj⟩ := List.mem_iff_getElem?.1 hs
      have hlt : ¬ jj ≤ beginIdx (sortedSel dm srt p).length :=
        fun hle => hnb (mem_batch_iff.2 ⟨jj, hle, hgj⟩)
      exact sorted_getElem?_le hgi hgj (by omega)

/-- C1 (amended), at twelve eligible records: seven are assigned. -/
theorem get_batching_rule_witness :
    (assignedByCall dm12.recs (dm12.Get insertionSorter noManagers 0 peerA).dm.recs).length
      = 7 :=
  (get_batching_rule dm12 insertionSorter noManagers 0 peerA).1.trans (by decide)

/-- C2: when `Get` assigns a non-empty batch, the returned pair is the inclusive
stamp range of the records assigned by the call: `low ≤ high`, every assigned
record has its stamp between them, and both ends are stamps of assigned
records (`low` the minimum, `high` the maximum). -/
theorem get_range_spans_batch (dm : Manager) (srt : Sorter) (ms : Registry) (self : Addr)
    (p : Node) (h : assignedByCall dm.recs (dm.Get srt ms self p).dm.recs ≠ []) :
    (dm.Get srt ms self p).low ≤ (dm.Get srt ms self p).high ∧
    (∀ x ∈ assignedByCall dm.recs (dm.Get srt ms self p).dm.recs,
      (dm.Get srt ms self p).low ≤ x.2.stamp ∧ x.2.stamp ≤ (dm.Get srt ms self p).high) ∧
    (∃ x ∈ assignedByCall dm.recs (dm.Get srt ms self p).dm.recs,
      x.2.stamp = (dm.Get srt ms self p).low) ∧
    (∃ x ∈ assignedByCall dm.recs (dm.Get srt ms self p).dm.recs,
      x.2.stamp = (dm.Get srt ms self p).high) := by
  have hpos : 0 < eligibleCount p dm.recs := by
    rcases Nat.eq_zero_or_pos (eligibleCount p dm.recs) with h0 | hpos
    · exact absurd (assignedByCall_get_zero dm srt ms self p h0) h
    · exact hpos
  have hlen := sortedSel_length dm srt p
  have hbl := beginIdx_lt hpos
  have hb : (sortedSel dm srt p)[beginIdx (eligibleCount p dm.recs)]? =
      some (sortedSel dm srt p)[beginIdx (eligibleCount p dm.recs)] :=
    List.getElem?_eq_getElem (by omega)
  have ha : (sortedSel dm srt p)[0]? = some (sortedSel dm srt p)[0] :=
    List.getElem?_eq_getElem (by omega)
  have hlow : (dm.Get srt ms self p).low =
      ((sortedSel dm srt p)[beginIdx (eligibleCount p dm.recs)]).2.stamp := by
    rw [get_of_pos dm srt ms self p hpos]
    exact stampAt_eq hb
  have hhigh : (dm.Get srt ms self p).high = ((sortedSel dm srt p)[0]).2.stamp := by
    rw [get_of_pos dm srt ms self p hpos]
    exact stampAt_eq ha
  have hmemb : (sortedSel dm srt p)[beginIdx (eligibleCount p dm.recs)] ∈ batch dm srt p :=
    mem_batch_iff.2 ⟨_, by rw [hlen], hb⟩
  have hmema : (sortedSel dm srt p)[0] ∈ batch dm srt p :=
    mem_batch_iff.2 ⟨0, Nat.zero_le _, ha⟩
  have hin : ∀ u ∈ batch dm srt p, ∃ x ∈ assignedByCall dm.recs (dm.Get srt ms self p).dm.recs,
      x.2.stamp = u.2.stamp := by
    intro u hu
    obtain ⟨k, hk, _⟩ := mem_batch_old hu
    exact ⟨(k, { u.2 with downloading := some p }),
      (mem_assignedByCall_get hpos).2 ⟨u.1, k, u.2, hu, hk, rfl⟩, rfl⟩
  rw [hlow, hhigh]
  refine ⟨sorted_getElem?_le ha hb (Nat.zero_le _), ?_, hin _ hmemb, hin _ hmema⟩
  intro x hx
  obtain ⟨i, k, r, hbm, _, rfl⟩ := (mem_assignedByCall_get hpos).1 hx
  obtain ⟨j, hj, hg⟩ := mem_batch_iff.1 hbm
  rw [hlen] at hj
  exact ⟨sorted_getElem?_le hg hb hj, sorted_getElem?_le ha hg (Nat.zero_le _)⟩

/-- C2 at a concrete state: three eligible records with stamps 150, 200 and
120 are assigned and the returned range is `120` to `200`. -/
theorem get_range_spans_batch_witness :
    (dm3.Get insertionSorter noManagers 0 peerA).low = 120 ∧
    (dm3.Get insertionSorter noManagers 0 peerA).high = 200 ∧
    ∀ x ∈ assignedByCall dm3.recs (dm3.Get insertionSorter noManagers 0 peerA).dm.recs,
      (dm3.Get insertionSorter noManagers 0 peerA).low ≤ x.2.stamp ∧
      x.2.stamp ≤ (dm3.Get insertionSorter noManagers 0 peerA).high :=
  ⟨by decide, by decide,
    (get_range_spans_batch dm3 insertionSorter noManagers 0 peerA (by decide)).2.1⟩

/-- C3: `Get` touches only eligible records. The map keeps its size; a record
whose assigned peer changes during the call listed `p` as a candidate, was
unfinished, unassigned and had a retry count below 5, and after the call it is
the same record assigned to `p`. When no record is eligible, `Get` returns
`(-1, -1)` and every record keeps its key, assigned peer, candidate list, stamp
and retry count. -/
theorem get_selects_only_eligible (dm : Manager) (srt : Sorter) (ms : Registry) (self : Addr)
    (p : Node) :
    (dm.Get srt ms self p).dm.recs.length = dm.recs.length ∧
    (∀ (i : Nat) (a b : String × targetRec), dm.recs[i]? = some a →
      (dm.Get srt ms self p).dm.recs[i]? = some b → a.2.downloading ≠ b.2.downloading →
        (p ∈ a.2.node ∧ a.2.finished = false ∧ a.2.downloading = none ∧ a.2.count < 5) ∧
        b = (a.1, { a.2 with downloading := some p })) ∧
    ((∀ kr ∈ dm.recs, eligible p kr.2 = false) →
      (dm.Get srt ms self p).low = -1 ∧ (dm.Get srt ms self p).high = -1 ∧
      ∀ (i : Nat) (a b : String × targetRec), dm.recs[i]? = some a →
        (dm.Get srt ms self p).dm.recs[i]? = some b →
          b.1 = a.1 ∧ b.2.downloading = a.2.downloading ∧ b.2.node = a.2.node ∧
          b.2.stamp = a.2.stamp ∧ b.2.count = a.2.count) := by
  refine ⟨get_length dm srt ms self p, ?_, ?_⟩
  · intro i a b ha hb hne
    rcases Nat.eq_zero_or_pos (eligibleCount p dm.recs) with h0 | hpos
    · rw [get_of_zero dm srt ms self p h0] at hb
      exact absurd (checkFinished_downloading dm ms i a b ha hb).2.2.1.symm hne
    · rw [get_getElem?_of_pos dm srt ms self p hpos, ha] at hb
      simp only [Option.map_some', Option.some.injEq] at hb
      by_cases hi : i ∈ (batch dm srt p).map Prod.fst
      · rw [if_pos hi] at hb
        obtain ⟨k, r, _, hg, he⟩ := mem_batch_fst hi
        rw [ha] at hg
        cases hg
        exact ⟨(eligible_iff p r).1 he, hb.symm⟩
      · rw [if_neg hi] at hb
        subst hb
        exact absurd rfl hne
  · intro hnone
    have h0 : eligibleCount p dm.recs = 0 := eligibleCount_eq_zero.2 hnone
    rw [get_of_zero dm srt ms self p h0]
    refine ⟨rfl, rfl, ?_⟩
    intro i a b ha hb
    obtain ⟨g0, g1, g2, g3, g4, _⟩ := checkFinished_downloading dm ms i a b ha hb
    exact ⟨g0, g2, g1, g4, g3⟩

/-- C3 at a concrete state: the record at position 0 of `dm3` changes its
assigned peer in `Get` for peer A; it was eligible and is now assigned to A. -/
theorem get_selects_only_eligible_witness :
    (peerA ∈ (openRec "r1" peerA 150).2.node ∧ (openRec "r1" peerA 150).2.finished = false ∧
      (openRec "r1" peerA 150).2.downloading = none ∧ (openRec "r1" peerA 150).2.count < 5) ∧
    ("r1", (⟨[peerA], some peerA, false, 0, 150⟩ : targetRec)) =
      ((openRec "r1" peerA 150).1,
        { (openRec "r1" peerA 150).2 with downloading := some peerA }) :=
  (get_selects_only_eligible dm3 insertionSorter noManagers 0 peerA).2.1 0
    (openRec "r1" peerA 150)
    ("r1", ⟨[peerA], some peerA, false, 0, 150⟩)
    (by decide) (by decide) (by decide)

/-! ## Construction and `Set` -/

theorem find_eq_none {k : String} {recs : Recs} :
    Recs.find k recs = none ↔ k ∉ recs.map Prod.fst := by
  induction recs with
  | nil => simp [Recs.find]
  | cons kr rest ih =>
    obtain ⟨k0, r0⟩ := kr
    simp only [Recs.find, List.map_cons, List.mem_cons, not_or]
    split
    · rename_i h
      simp [h]
    · rename_i h
      rw [ih]
      constructor
      · exact fun h' => ⟨fun e => h e.symm, h'⟩
      · exact fun h' => h'.2

theorem find_append_of_mem {k : String} {l1 l2 : Recs} (h : k ∈ l1.map Prod.fst) :
    Recs.find k (l1 ++ l2) = Recs.find k l1 := by
  induction l1 with
  | nil => simp at h
  | cons kr rest ih =>
    obtain ⟨k0, r0⟩ := kr
    simp only [List.cons_append, Recs.find]
    split
    · rfl
    · rename_i hne
      apply ih
      simp only [List.map_cons, List.mem_cons] at h
      rcases h with h | h
      · exact absurd h.symm hne
      · exact h

theorem find_map_const {k : String} {keys : List String} (c : targetRec) (h : k ∈ keys) :
    Recs.find k (keys.map (fun x => (x, c))) = some c := by
  induction keys with
  | nil => simp at h
  | cons k0 rest ih =>
    simp only [List.map_cons, Recs.find]
    split
    · rfl
    · rename_i hne
      rcases List.mem_cons.1 h with h | h
      · exact absurd h.symm hne
      · exact ih h

theorem insert_of_not_mem {k : String} {r : targetRec} {recs : Recs}
    (h : k ∉ recs.map Prod.fst) : Recs.insert k r recs = recs ++ [(k, r)] := by
  induction recs with
  | nil => rfl
  | cons kr rest ih =>
    obtain ⟨k0, r0⟩ := kr
    simp only [List.map_cons, List.mem_cons, not_or] at h
    simp only [Recs.insert, List.cons_append]
    rw [if_neg (fun e => h.1 e.symm), ih h.2]

theorem foldl_insert_fresh (keys : List String) (acc : Recs) (hnd : keys.Nodup)
    (hacc : ∀ k ∈ keys, k ∉ acc.map Prod.fst) :
    keys.foldl (fun recs k => Recs.insert k finishedRec recs) acc =
      acc ++ keys.map (fun k => (k, finishedRec)) := by
  induction keys generalizing acc with
  | nil => simp
  | cons k rest ih =>
    obtain ⟨hk, hrest⟩ := List.nodup_cons.1 hnd
    simp only [List.foldl_cons, List.map_cons]
    rw [insert_of_not_mem (hacc k (List.mem_cons_self _ _)), ih _ hrest]
    · simp
    · intro k' hk'
      simp only [List.map_append, List.map_cons, List.map_nil, List.mem_append,
        List.mem_singleton, not_or]
      exact ⟨hacc k' (List.mem_cons_of_mem _ hk'), fun e => hk (e ▸ hk')⟩

theorem fresh_recs (ca : Cache) (hnd : ca.keys.Nodup) :
    (Manager.fresh ca).recs = ca.keys.map (fun k => (k, finishedRec)) := by
  unfold Manager.fresh
  simp only
  rw [foldl_insert_fresh ca.keys [] hnd (by simp)]
  simp

theorem set_fold_aux (d : String) (keys : List String) (p : Node) (suf pre : List Head)
    (hH : ((pre ++ suf).map Head.Recstr).Nodup)
    (hcross : ∀ h ∈ pre ++ suf, ∀ h' ∈ pre ++ suf, h.Idstr = h'.Recstr → h = h')
    (hloc : ∀ h ∈ pre ++ suf, h.Idstr ∉ keys → h.Recstr ∉ keys) :
    (Manager.Set { datfile := d, recs := keys.map (fun k => (k, finishedRec)) ++
        (notHeld keys pre).map (reportedRec p) } suf p) =
      { datfile := d, recs := keys.map (fun k => (k, finishedRec)) ++
        (notHeld keys (pre ++ suf)).map (reportedRec p) } := by
  induction suf generalizing pre with
  | nil => simp [Manager.Set]
  | cons h suf ih =>
    have hassoc : pre ++ h :: suf = (pre ++ [h]) ++ suf := by simp
    have ih' := ih (pre ++ [h]) (hassoc ▸ hH) (hassoc ▸ hcross) (hassoc ▸ hloc)
    rw [← hassoc] at ih'
    rw [← ih']
    simp only [Manager.Set, List.foldl_cons]
    congr 1
    have hkeys : (keys.map (fun k => (k, finishedRec))).map Prod.fst = keys := by
      simp [List.map_map, Function.comp_def]
    have hnew : ((notHeld keys pre).map (reportedRec p)).map Prod.fst =
        (notHeld keys pre).map Head.Recstr := by
      simp [List.map_map, Function.comp_def, reportedRec]
    have hhmem : h ∈ pre ++ h :: suf := by simp
    have hpre : h.Recstr ∉ pre.map Head.Recstr := by
      rw [List.map_append, List.map_cons] at hH
      exact fun hm => (List.nodup_append.1 hH).2.2 hm (List.mem_cons_self _ _)
    by_cases hk : h.Idstr ∈ keys
    · have hfind : Recs.find h.Idstr (keys.map (fun k => (k, finishedRec)) ++
          (notHeld keys pre).map (reportedRec p)) = some finishedRec := by
        rw [find_append_of_mem (by rw [hkeys]; exact hk)]
        exact find_map_const _ hk
      simp only [Manager.setOne, hfind]
      simp [finishedRec, notHeld, List.filter_append, hk]
    · have hnotin : h.Idstr ∉ (keys.map (fun k => (k, finishedRec)) ++
          (notHeld keys pre).map (reportedRec p)).map Prod.fst := by
        rw [List.map_append, hkeys, hnew, List.mem_append, not_or]
        refine ⟨hk, fun hm => ?_⟩
        obtain ⟨h', hh', he⟩ := List.mem_map.1 hm
        have hh'pre : h' ∈ pre := List.mem_of_mem_filter hh'
        have := hcross h hhmem h' (List.mem_append_left _ hh'pre) he.symm
        subst this
        exact hpre (List.mem_map_of_mem _ hh'pre)
      have hrnotin : h.Recstr ∉ (keys.map (fun k => (k, finishedRec)) ++
          (notHeld keys pre).map (reportedRec p)).map Prod.fst := by
        rw [List.map_append, hkeys, hnew, List.mem_append, not_or]
        refine ⟨hloc h hhmem hk, fun hm => hpre ?_⟩
        obtain ⟨h', hh', he⟩ := List.mem_map.1 hm
        exact he ▸ List.mem_map_of_mem _ (List.mem_of_mem_filter hh')
      simp only [Manager.setOne, find_eq_none.2 hnotin]
      rw [insert_of_not_mem hrnotin]
      simp [notHeld, List.filter_append, hk, reportedRec]

/-- C4: a manager built from the local keys and then given the report `H` of
peer `p` holds the local keys as finished records, untouched, followed by one
record for each reported head whose key is not a local key: unfinished,
unassigned, retry count 0, sole candidate `p`, the reported stamp. The
unfinished records are exactly those. The hypotheses say that the local keys
are distinct (they are the keys of a map), that distinct heads have distinct
keys, and that the key under which a new head is stored is not a local key. -/
theorem set_after_construct (ca : Cache) (H : List Head) (p : Node)
    (hL : ca.keys.Nodup)
    (hH : (H.map Head.Recstr).Nodup)
    (hcross : ∀ h ∈ H, ∀ h' ∈ H, h.Idstr = h'.Recstr → h = h')
    (hloc : ∀ h ∈ H, h.Idstr ∉ ca.keys → h.Recstr ∉ ca.keys) :
    ((Manager.fresh ca).Set H p).recs =
      ca.keys.map (fun k => (k, finishedRec)) ++ (notHeld ca.keys H).map (reportedRec p) ∧
    ((Manager.fresh ca).Set H p).recs.filter (fun kr => !kr.2.finished) =
      (notHeld ca.keys H).map (reportedRec p) := by
  have hfresh : Manager.fresh ca =
      { datfile := ca.Datfile, recs := ca.keys.map (fun k => (k, finishedRec)) ++
        (notHeld ca.keys []).map (reportedRec p) } := by
    have := fresh_recs ca hL
    cases hm : Manager.fresh ca with
    | mk d recs =>
      rw [hm] at this
      simp only at this
      have hd : d = ca.Datfile := by
        have : (Manager.fresh ca).datfile = ca.Datfile := rfl
        rw [hm] at this
        exact this
      subst hd
      subst this
      simp [notHeld]
  have hset := set_fold_aux ca.Datfile ca.keys p H [] (by simpa using hH)
    (by simpa using hcross) (by simpa using hloc)
  rw [← hfresh, List.nil_append] at hset
  rw [hset]
  refine ⟨rfl, ?_⟩
  simp only [List.filter_append]
  have h1 : (ca.keys.map (fun k => (k, finishedRec))).filter (fun kr => !kr.2.finished) = [] := by
    simp [List.filter_eq_nil_iff, finishedRec]
  have h2 : ((notHeld ca.keys H).map (reportedRec p)).filter (fun kr => !kr.2.finished) =
      (notHeld ca.keys H).map (reportedRec p) := by
    simp [List.filter_eq_self, reportedRec]
  rw [h1, h2, List.nil_append]

/-- C4 at the end-to-end example: local stamps {100}, peer A reports
{100, 150, 200}; the unfinished records are the ones for 150 and 200. -/
theorem set_after_construct_witness :
    ((Manager.fresh cacheEx).Set headsEx peerA).recs.filter (fun kr => !kr.2.finished) =
      [reportedRec peerA ⟨150, "150_bb", "150<>bb"⟩, reportedRec peerA ⟨200, "200_cc", "200<>cc"⟩] :=
  (set_after_construct cacheEx headsEx peerA (by decide) (by decide) (by decide)
    (by decide)).2.trans (by decide)

theorem find_insert_self (k : String) (r : targetRec) (recs : Recs) :
    Recs.find k (Recs.insert k r recs) = some r := by
  induction recs with
  | nil => simp [Recs.insert, Recs.find]
  | cons kr rest ih =>
    obtain ⟨k0, r0⟩ := kr
    simp only [Recs.insert]
    split
    · rename_i h
      simp [Recs.find, h]
    · rename_i h
      simp [Recs.find, h, ih]

theorem find_insert_other {k k' : String} (r : targetRec) (recs : Recs) (h : k' ≠ k) :
    Recs.find k' (Recs.insert k r recs) = Recs.find k' recs := by
  induction recs with
  | nil => simp [Recs.insert, Recs.find, h.symm]
  | cons kr rest ih =>
    obtain ⟨k0, r0⟩ := kr
    simp only [Recs.insert]
    split
    · rename_i h0
      subst h0
      simp [Recs.find, h.symm]
    · rename_i h0
      simp only [Recs.find]
      split
      · rfl
      · exact ih

/-- C5 (the code, for any head whose two keys differ): `Set` looks a head up
under `Idstr()` and stores it under `Recstr()`. When the head is not tracked
under its `Idstr()` key, the second report does not find the record made by the
first one and overwrites it: whatever happened to the record in between, after
the second `Set` the record under `Recstr()` has the second peer as its only
candidate, retry count 0 and no assigned peer. -/
theorem set_second_report_overwrites (dm : Manager) (h : Head) (p1 p2 : Node)
    (hkeys : h.Idstr ≠ h.Recstr) (hnew : Recs.find h.Idstr dm.recs = none)
    (mid : targetRec → targetRec) :
    Recs.find h.Recstr ((dm.Set [h] p1).recs) = some (reportedRec p1 h).2 ∧
    Recs.find h.Recstr
      ((Manager.Set { dm with recs := Recs.modify h.Recstr mid (dm.Set [h] p1).recs }
        [h] p2).recs) = some (reportedRec p2 h).2 := by
  have hone : ∀ (d : Manager) (n : Node), Recs.find h.Idstr d.recs = none →
      (d.Set [h] n).recs = Recs.insert h.Recstr (reportedRec n h).2 d.recs := by
    intro d n hd
    simp [Manager.Set, Manager.setOne, hd, reportedRec]
  have hmod : ∀ (recs : Recs), Recs.find h.Idstr recs = none →
      Recs.find h.Idstr (Recs.modify h.Recstr mid recs) = none := by
    intro recs
    induction recs with
    | nil => simp [Recs.modify, Recs.find]
    | cons kr rest ih =>
      obtain ⟨k0, r0⟩ := kr
      simp only [Recs.find, Recs.modify]
      split
      · intro hc; cases hc
      · rename_i hk0
        intro hrest
        split
        · simp [Recs.find, hk0, hrest]
        · simp [Recs.find, hk0, ih hrest]
  have h1 := hone dm p1 hnew
  refine ⟨by rw [h1]; exact find_insert_self _ _ _, ?_⟩
  have h2 : Recs.find h.Idstr (Recs.modify h.Recstr mid (dm.Set [h] p1).recs) = none := by
    apply hmod
    rw [h1, find_insert_other _ _ hkeys]
    exact hnew
  rw [hone _ p2 h2]
  exact find_insert_self _ _ _

/-- C5 at the failing input: peers A and B both report the head with keys
`150_bb` and `150<>bb` to an empty manager; in between the record fails once
(retry count 1). Afterwards the one tracked record lists only B and its retry
count is back to 0. -/
theorem set_second_report_overwrites_witness :
    dmReported.recs = [("150<>bb", ⟨[peerA], none, false, 1, 150⟩)] ∧
    (dmReported.Set [head150] peerB).recs = [("150<>bb", ⟨[peerB], none, false, 0, 150⟩)] ∧
    Recs.find head150.Recstr (dmReported.Set [head150] peerB).recs =
      some (reportedRec peerB head150).2 :=
  ⟨by decide, by decide,
    (set_second_report_overwrites dmEmpty head150 peerA peerB (by decide) (by decide)
      bumpCount).2⟩

/-! ## `Finished` and `checkFinished` -/

theorem finished_length (dm : Manager) (ms : Registry) (n : Node) (success : Bool) :
    (dm.Finished ms n success).2.recs.length = dm.recs.length := by
  unfold Manager.Finished
  rw [checkFinished_length]
  simp

theorem finishOne_fields (n : Node) (success : Bool) (r : targetRec) :
    (finishOne n success r).node = r.node ∧ (finishOne n success r).stamp = r.stamp ∧
    (r.finished = true → (finishOne n success r).finished = true) ∧
    (r.downloading = some n →
      (finishOne n success r).downloading = none ∧
      (success = true →
        (finishOne n success r).finished = true ∧ (finishOne n success r).count = r.count) ∧
      (success = false →
        (finishOne n success r).finished = r.finished ∧
        (finishOne n success r).count = r.count + 1)) ∧
    (r.downloading ≠ some n → finishOne n success r = r) := by
  unfold finishOne
  by_cases h : r.downloading = some n
  · cases success <;> simp [h]
  · simp [h]

/-- Position by position: the record at position `i` after `Finished` is the
record before, passed through the loop body, and then either left alone or
passed through the give-up step. -/
theorem finished_getElem? (dm : Manager) (ms : Registry) (n : Node) (success : Bool)
    (i : Nat) (a b : String × targetRec) (ha : dm.recs[i]? = some a)
    (hb : (dm.Finished ms n success).2.recs[i]? = some b) :
    b = (a.1, finishOne n success a.2) ∨ b = (a.1, giveUp (finishOne n success a.2)) := by
  unfold Manager.Finished at hb
  rcases checkFinished_getElem? _ ms i with h | h
  · rw [h] at hb
    simp only [List.getElem?_map, ha, Option.map_some', Option.some.injEq] at hb
    exact Or.inl hb.symm
  · rw [h] at hb
    simp only [List.getElem?_map, ha, Option.map_some', Option.some.injEq] at hb
    exact Or.inr hb.symm

/-- C6: `Finished(p, success)`, position by position. A record assigned to `p`
is unassigned afterwards; on success it is finished with its retry count
unchanged, on failure its retry count is one more. A record not assigned to `p`
keeps its assigned peer, candidate list, stamp and retry count. Keys, candidate
lists and stamps never change. -/
theorem finished_effect (dm : Manager) (ms : Registry) (p : Node) (success : Bool) :
    (dm.Finished ms p success).2.recs.length = dm.recs.length ∧
    ∀ (i : Nat) (a b : String × targetRec), dm.recs[i]? = some a →
      (dm.Finished ms p success).2.recs[i]? = some b →
        b.1 = a.1 ∧ b.2.node = a.2.node ∧ b.2.stamp = a.2.stamp ∧
        (a.2.downloading = some p →
          b.2.downloading = none ∧
          (success = true → b.2.finished = true ∧ b.2.count = a.2.count) ∧
          (success = false → b.2.count = a.2.count + 1)) ∧
        (a.2.downloading ≠ some p →
          b.2.downloading = a.2.downloading ∧ b.2.count = a.2.count) := by
  refine ⟨finished_length dm ms p success, ?_⟩
  intro i a b ha hb
  obtain ⟨f1, f2, _, f4, f5⟩ := finishOne_fields p success a.2
  obtain ⟨g1, g2, g3, g4, g5⟩ := giveUp_fields (finishOne p success a.2)
  rcases finished_getElem? dm ms p success i a b ha hb with h | h
  · subst h
    refine ⟨rfl, f1, f2, ?_, ?_⟩
    · intro hd
      obtain ⟨k1, k2, k3⟩ := f4 hd
      exact ⟨k1, k2, fun hs => (k3 hs).2⟩
    · intro hd
      rw [f5 hd]
      exact ⟨rfl, rfl⟩
  · subst h
    refine ⟨rfl, g1.trans f1, g4.trans f2, ?_, ?_⟩
    · intro hd
      obtain ⟨k1, k2, k3⟩ := f4 hd
      refine ⟨g2.trans k1, fun hs => ⟨g5.2 (Or.inl (k2 hs).1), g3.trans (k2 hs).2⟩,
        fun hs => g3.trans (k3 hs).2⟩
    · intro hd
      have e := f5 hd
      exact ⟨g2.trans (by rw [e]), g3.trans (by rw [e])⟩

/-- C6 at a concrete state: peer A fails; its record at position 0 of `dmBusy`
is unassigned afterwards and its retry count went from 2 to 3. -/
theorem finished_effect_witness :
    (dmBusy.Finished regD peerA false).2.recs =
      [("r1", ⟨[peerA], none, false, 3, 150⟩), ("r2", ⟨[peerB], some peerB, false, 0, 170⟩),
        ("r3", ⟨[peerA, peerB], none, false, 1, 200⟩)] ∧
    ((⟨[peerA], none, false, 3, 150⟩ : targetRec).downloading = none ∧
      (false = true → (⟨[peerA], none, false, 3, 150⟩ : targetRec).finished = true ∧
        (⟨[peerA], none, false, 3, 150⟩ : targetRec).count = (2 : Int)) ∧
      (false = false → (⟨[peerA], none, false, 3, 150⟩ : targetRec).count = (2 : Int) + 1)) :=
  ⟨by decide,
    ((finished_effect dmBusy regD peerA false).2 0 ("r1", ⟨[peerA], some peerA, false, 2, 150⟩)
      ("r1", ⟨[peerA], none, false, 3, 150⟩) (by decide) (by decide)).2.2.2.1 rfl⟩

/-! ## Rounds of `Get` and `Finished` -/

theorem checkFinished_datfile (dm : Manager) (ms : Registry) :
    (dm.checkFinished ms).2.datfile = dm.datfile := by
  unfold Manager.checkFinished
  split <;> rfl

theorem get_datfile (dm : Manager) (srt : Sorter) (ms : Registry) (self : Addr) (n : Node) :
    (dm.Get srt ms self n).dm.datfile = dm.datfile := by
  rcases Nat.eq_zero_or_pos (eligibleCount n dm.recs) with h | h
  · rw [get_of_zero dm srt ms self n h]
    exact checkFinished_datfile dm ms
  · rw [get_of_pos dm srt ms self n h]

theorem finished_datfile (dm : Manager) (ms : Registry) (n : Node) (success : Bool) :
    (dm.Finished ms n success).2.datfile = dm.datfile := by
  unfold Manager.Finished
  rw [checkFinished_datfile]

theorem checkFinished_of_registered (dm : Manager) (ms : Registry) (x : Addr)
    (h : ms dm.datfile = some x) :
    (dm.checkFinished ms).2.recs = dm.recs.map (fun kr => (kr.1, giveUp kr.2)) ∧
    (dm.checkFinished ms).1 =
      (if (dm.recs.map (fun kr => (kr.1, giveUp kr.2))).all (fun kr => kr.2.finished)
        then ms.delete dm.datfile else ms) := by
  unfold Manager.checkFinished
  rw [h]
  exact ⟨rfl, rfl⟩

theorem checkFinished_of_unregistered (dm : Manager) (ms : Registry)
    (h : ms dm.datfile = none) : dm.checkFinished ms = (ms, dm) := by
  unfold Manager.checkFinished
  rw [h]

/-- Position by position: `Get` keeps key, candidates, retry count and stamp; it
never clears `finished`, and sets it only by the give-up step. -/
theorem get_fields (dm : Manager) (srt : Sorter) (ms : Registry) (self : Addr) (n : Node)
    (i : Nat) (a b : String × targetRec) (ha : dm.recs[i]? = some a)
    (hb : (dm.Get srt ms self n).dm.recs[i]? = some b) :
    b.1 = a.1 ∧ b.2.node = a.2.node ∧ b.2.count = a.2.count ∧ b.2.stamp = a.2.stamp ∧
      (a.2.finished = true → b.2.finished = true) ∧
      (b.2.finished = true → a.2.finished = true ∨ 5 ≤ a.2.count) := by
  rcases Nat.eq_zero_or_pos (eligibleCount n dm.recs) with h0 | hpos
  · rw [get_of_zero dm srt ms self n h0] at hb
    obtain ⟨g0, g1, _, g3, g4, g5, g6⟩ := checkFinished_downloading dm ms i a b ha hb
    exact ⟨g0, g1, g3, g4, g5, g6⟩
  · rw [get_getElem?_of_pos dm srt ms self n hpos, ha] at hb
    simp only [Option.map_some', Option.some.injEq] at hb
    split at hb
    · subst hb
      exact ⟨rfl, rfl, rfl, rfl, id, Or.inl⟩
    · subst hb
      exact ⟨rfl, rfl, rfl, rfl, id, Or.inl⟩

/-- Position by position: a record whose assigned peer `Get` changed was
eligible, is now the same record assigned to `n`, and the manager is registered
under its datfile. -/
theorem get_changed (dm : Manager) (srt : Sorter) (ms : Registry) (self : Addr) (n : Node)
    (i : Nat) (a b : String × targetRec) (ha : dm.recs[i]? = some a)
    (hb : (dm.Get srt ms self n).dm.recs[i]? = some b)
    (hne : a.2.downloading ≠ b.2.downloading) :
    eligible n a.2 = true ∧ b = (a.1, { a.2 with downloading := some n }) ∧
      (dm.Get srt ms self n).managers = ms.set dm.datfile self := by
  rcases Nat.eq_zero_or_pos (eligibleCount n dm.recs) with h0 | hpos
  · rw [get_of_zero dm srt ms self n h0] at hb
    exact absurd (checkFinished_downloading dm ms i a b ha hb).2.2.1.symm hne
  · have hm : (dm.Get srt ms self n).managers = ms.set dm.datfile self := by
      rw [get_of_pos dm srt ms self n hpos]
    rw [get_getElem?_of_pos dm srt ms self n hpos, ha] at hb
    simp only [Option.map_some', Option.some.injEq] at hb
    by_cases hi : i ∈ (batch dm srt n).map Prod.fst
    · rw [if_pos hi] at hb
      obtain ⟨k, r, _, hg, he⟩ := mem_batch_fst hi
      rw [ha] at hg
      cases hg
      exact ⟨he, hb.symm, hm⟩
    · rw [if_neg hi] at hb
      subst hb
      exact absurd rfl hne

theorem registry_set_self (ms : Registry) (d : String) (a : Addr) : (ms.set d a) d = some a := by
  simp [Registry.set]

theorem registry_delete_self (ms : Registry) (d : String) : (ms.delete d) d = none := by
  simp [Registry.delete]

theorem finished_recs_of_registered (dm : Manager) (ms : Registry) (n : Node)
    (success : Bool) (x : Addr) (h : ms dm.datfile = some x) :
    (dm.Finished ms n success).2.recs =
      dm.recs.map (fun kr => (kr.1, giveUp (finishOne n success kr.2))) := by
  unfold Manager.Finished
  have h' : ms (Manager.mk dm.datfile
      (dm.recs.map (fun kr => (kr.1, finishOne n success kr.2)))).datfile = some x := h
  rw [(checkFinished_of_registered _ ms x h').1]
  simp [List.map_map, Function.comp_def]

/-- One failing round on the record at position `i`, given that the `Get` of the
round leaves it assigned to `p`. -/
theorem failCycle_step (srt : Sorter) (self : Addr) (p : Node) (s : Registry × Manager)
    (i : Nat) (b g : String × targetRec) (hb : s.2.recs[i]? = some b)
    (hunf : b.2.finished = false)
    (hg : (s.2.Get srt s.1 self p).dm.recs[i]? = some g) (hgd : g.2.downloading = some p) :
    ∃ b', (failCycle srt self p s).2.recs[i]? = some b' ∧ b'.1 = b.1 ∧
      b'.2.count = b.2.count + 1 ∧ b'.2.downloading = none ∧ b'.2.node = b.2.node ∧
      b'.2.stamp = b.2.stamp ∧
      (b.2.count + 1 < 5 → b'.2.finished = false) ∧
      (b.2.downloading = none → 5 ≤ b.2.count + 1 → b'.2.finished = true) := by
  obtain ⟨e0, e1, e2, e3, _, e5⟩ := get_fields s.2 srt s.1 self p i b g hb hg
  have hlen : i < (failCycle srt self p s).2.recs.length := by
    unfold failCycle
    rw [finished_length, get_length]
    exact (List.getElem?_eq_some_iff.1 hb).1
  obtain ⟨b', hb'⟩ : ∃ b', (failCycle srt self p s).2.recs[i]? = some b' :=
    ⟨_, List.getElem?_eq_getElem hlen⟩
  refine ⟨b', hb', ?_⟩
  obtain ⟨f1, f2, _, f4, _⟩ := finishOne_fields p false g.2
  obtain ⟨k1, _, k3⟩ := f4 hgd
  obtain ⟨k3a, k3b⟩ := k3 rfl
  obtain ⟨u1, u2, u3, u4, u5⟩ := giveUp_fields (finishOne p false g.2)
  have hgf : b.2.count + 1 < 5 → g.2.finished = false := by
    intro hc
    by_contra hne
    have : g.2.finished = true := by simpa using hne
    rcases e5 this with h | h
    · rw [hunf] at h; cases h
    · omega
  have hlast : b.2.downloading = none → b' = (g.1, giveUp (finishOne p false g.2)) := by
    intro hd
    have hne : b.2.downloading ≠ g.2.downloading := by rw [hd, hgd]; simp
    obtain ⟨_, _, hm⟩ := get_changed s.2 srt s.1 self p i b g hb hg hne
    have hreg : (s.2.Get srt s.1 self p).managers (s.2.Get srt s.1 self p).dm.datfile =
        some self := by
      rw [hm, get_datfile]
      exact registry_set_self _ _ _
    have hrecs := finished_recs_of_registered _ _ p false self hreg
    have hb2 := hb'
    unfold failCycle at hb2
    rw [hrecs] at hb2
    simp only [List.getElem?_map, hg, Option.map_some', Option.some.injEq] at hb2
    exact hb2.symm
  rcases finished_getElem? (s.2.Get srt s.1 self p).dm (s.2.Get srt s.1 self p).managers
    p false i g b' hg hb' with h | h
  · refine ⟨by rw [h]; exact e0, by rw [h]; simp only; rw [k3b, e2], by rw [h]; exact k1,
      by rw [h]; exact f1.trans e1, by rw [h]; exact f2.trans e3, ?_, ?_⟩
    · intro hc
      rw [h]
      simp only
      rw [k3a]
      exact hgf hc
    · intro hd hc
      rw [hlast hd]
      exact u5.2 (Or.inr (by rw [k3b, e2]; exact hc))
  · subst h
    refine ⟨e0, by simp only; rw [u3, k3b, e2], u2.trans k1, (u1.trans f1).trans e1,
      (u4.trans f2).trans e3, ?_, ?_⟩
    · intro hc
      simp only
      by_contra hne
      have hf : (giveUp (finishOne p false g.2)).finished = true := by simpa using hne
      rcases u5.1 hf with h' | h'
      · rw [k3a, hgf hc] at h'; cases h'
      · rw [k3b, e2] at h'; omega
    · intro _ hc
      exact u5.2 (Or.inr (by rw [k3b, e2]; exact hc))

theorem failCycles_succ (srt : Sorter) (self : Addr) (p : Node) (k : Nat)
    (s : Registry × Manager) :
    failCycles srt self p (k + 1) s = failCycle srt self p (failCycles srt self p k s) := rfl

/-- A finished record is not touched by `Get`: it stays finished and keeps its
assigned peer. -/
theorem get_keeps_finished (dm : Manager) (srt : Sorter) (ms : Registry) (self : Addr)
    (n : Node) (i : Nat) (a : String × targetRec) (ha : dm.recs[i]? = some a)
    (hfin : a.2.finished = true) :
    ∃ b, (dm.Get srt ms self n).dm.recs[i]? = some b ∧ b.2.finished = true ∧
      b.2.downloading = a.2.downloading := by
  have hlen : i < (dm.Get srt ms self n).dm.recs.length := by
    rw [get_length]
    exact (List.getElem?_eq_some_iff.1 ha).1
  obtain ⟨b, hb⟩ : ∃ b, (dm.Get srt ms self n).dm.recs[i]? = some b :=
    ⟨_, List.getElem?_eq_getElem hlen⟩
  refine ⟨b, hb, (get_fields dm srt ms self n i a b ha hb).2.2.2.2.1 hfin, ?_⟩
  by_contra hne
  have he := (get_changed dm srt ms self n i a b ha hb (fun e => hne e.symm)).1
  rw [eligible_iff, hfin] at he
  cases he.2.1

/-- A finished, unassigned record is not touched by `Finished`. -/
theorem finished_keeps_finished (dm : Manager) (ms : Registry) (n : Node) (success : Bool)
    (i : Nat) (a : String × targetRec) (ha : dm.recs[i]? = some a)
    (hfin : a.2.finished = true) (hdl : a.2.downloading = none) :
    ∃ b, (dm.Finished ms n success).2.recs[i]? = some b ∧ b.2.finished = true ∧
      b.2.downloading = none := by
  have hlen : i < (dm.Finished ms n success).2.recs.length := by
    rw [finished_length]
    exact (List.getElem?_eq_some_iff.1 ha).1
  obtain ⟨b, hb⟩ : ∃ b, (dm.Finished ms n success).2.recs[i]? = some b :=
    ⟨_, List.getElem?_eq_getElem hlen⟩
  have hne : a.2.downloading ≠ some n := by rw [hdl]; simp
  have hsame := (finishOne_fields n success a.2).2.2.2.2 hne
  obtain ⟨_, u2, _, _, u5⟩ := giveUp_fields a.2
  refine ⟨b, hb, ?_⟩
  rcases finished_getElem? dm ms n success i a b ha hb with h | h
  · rw [h, hsame]
    exact ⟨hfin, hdl⟩
  · rw [h, hsame]
    exact ⟨u5.2 (Or.inl hfin), u2.trans hdl⟩

/-- A finished, unassigned record stays so through any sequence of `Get` and
`Finished` calls. -/
theorem runCalls_keeps_finished (self : Addr) (cs : List Call) :
    ∀ (s : Registry × Manager) (i : Nat) (a : String × targetRec), s.2.recs[i]? = some a →
      a.2.finished = true → a.2.downloading = none → (∀ c ∈ cs, c.isSet = false) →
      ∃ b, (runCalls self s cs).2.recs[i]? = some b ∧ b.2.finished = true ∧
        b.2.downloading = none := by
  induction cs with
  | nil =>
    intro s i a ha hfin hdl _
    exact ⟨a, ha, hfin, hdl⟩
  | cons c cs ih =>
    intro s i a ha hfin hdl hns
    have hrest : ∀ c' ∈ cs, c'.isSet = false := fun c' hc' => hns c' (List.mem_cons_of_mem _ hc')
    have hc := hns c (List.mem_cons_self _ _)
    simp only [runCalls, List.foldl_cons]
    cases c with
    | set res n => cases hc
    | get srt n =>
      obtain ⟨b, hb, hbf, hbd⟩ := get_keeps_finished s.2 srt s.1 self n i a ha hfin
      exact ih _ i b hb hbf (hbd.trans hdl) hrest
    | finished n success =>
      obtain ⟨b, hb, hbf, hbd⟩ := finished_keeps_finished s.2 s.1 n success i a ha hfin hdl
      exact ih _ i b hb hbf hbd hrest

/-- The part of C7 that holds on the code. An unfinished, unassigned record with
retry count 0 goes through `m ≤ 5` successive rounds `Get(p)`,
`Finished(p, false)`, the `Get` of each of these rounds leaving it assigned to
`p`. After the `m` rounds its retry count is `m`; for `m ≤ 4` it is unfinished,
and for `1 ≤ m ≤ 4` eligible for `p` again; for `m = 5` it is finished (the
completion check ran, because the `Get` of that round registered the manager)
and it stays finished and unassigned through `Get` and `Finished` calls. -/
theorem give_up_after_five_failures (srt : Sorter) (self : Addr) (p : Node) (ms : Registry)
    (dm : Manager) (i : Nat) (a : String × targetRec)
    (ha : dm.recs[i]? = some a) (hunf : a.2.finished = false) (hcnt : a.2.count = 0)
    (hdl : a.2.downloading = none) (m : Nat) (hm : m ≤ 5)
    (hassigned : ∀ k, k < m → ∃ g,
      ((failCycles srt self p k (ms, dm)).2.Get srt (failCycles srt self p k (ms, dm)).1
        self p).dm.recs[i]? = some g ∧ g.2.downloading = some p) :
    ∃ b, (failCycles srt self p m (ms, dm)).2.recs[i]? = some b ∧ b.2.count = m ∧
      b.2.downloading = none ∧
      (m ≤ 4 → b.2.finished = false) ∧
      (1 ≤ m → m ≤ 4 → eligible p b.2 = true) ∧
      (m = 5 → b.2.finished = true) ∧
      (m = 5 → ∀ (cs : List Call), (∀ c ∈ cs, c.isSet = false) → ∃ b',
        (runCalls self (failCycles srt self p m (ms, dm)) cs).2.recs[i]? = some b' ∧
        b'.2.finished = true ∧ b'.2.downloading = none) := by
  have inv : ∀ k, k ≤ m → ∃ b, (failCycles srt self p k (ms, dm)).2.recs[i]? = some b ∧
      b.2.count = k ∧ b.2.downloading = none ∧ (k < 5 → b.2.finished = false) ∧
      (k = 5 → b.2.finished = true) ∧ (1 ≤ k → p ∈ b.2.node) := by
    intro k
    induction k with
    | zero =>
      intro _
      exact ⟨a, ha, by simpa using hcnt, hdl, fun _ => hunf, fun h => absurd h (by omega),
        fun h => absurd h (by omega)⟩
    | succ k ih =>
      intro hk
      rw [failCycles_succ]
      obtain ⟨b, hb, hc, hd, hf, _, _⟩ := ih (by omega)
      obtain ⟨g, hg, hgd⟩ := hassigned k (by omega)
      have hne : b.2.downloading ≠ g.2.downloading := by rw [hd, hgd]; simp
      have hel := (get_changed _ srt _ self p i b g hb hg hne).1
      obtain ⟨b', hb', _, c1, c2, c3, _, c5, c6⟩ :=
        failCycle_step srt self p (failCycles srt self p k (ms, dm)) i b g hb (hf (by omega))
          hg hgd
      refine ⟨b', hb', by rw [c1, hc]; push_cast; rfl, c2, ?_, ?_, ?_⟩
      · intro hlt
        exact c5 (by rw [hc]; omega)
      · intro h5
        exact c6 hd (by rw [hc]; omega)
      · intro _
        rw [c3]
        exact ((eligible_iff p b.2).1 hel).1
  obtain ⟨b, hb, hc, hd, hf, hf5, hnode⟩ := inv m (le_refl _)
  refine ⟨b, hb, hc, hd, fun h4 => hf (by omega), ?_, hf5, ?_⟩
  · intro h1 h4
    rw [eligible_iff]
    exact ⟨hnode h1, hf (by omega), hd, by rw [hc]; omega⟩
  · intro h5 cs hcs
    exact runCalls_keeps_finished self cs _ i b hb (hf5 h5) hd hcs

/-- Five failing rounds at a concrete state: one open record that peer A fails
to deliver five times is then finished with retry count 5. -/
theorem give_up_after_five_failures_witness :
    ∃ b, (failCycles insertionSorter 0 peerA 5 (noManagers, dmOne)).2.recs[0]? = some b ∧
      b.2.count = 5 ∧ b.2.downloading = none ∧ b.2.finished = true := by
  obtain ⟨b, hb, hc, hd, _, _, hf, _⟩ :=
    give_up_after_five_failures insertionSorter 0 peerA noManagers dmOne 0
      (openRec "r1" peerA 150) (by decide) (by decide) (by decide) (by decide) 5 (le_refl _)
      (by
        intro k hk
        interval_cases k
        · exact ⟨("r1", ⟨[peerA], some peerA, false, 0, 150⟩), by decide, rfl⟩
        · exact ⟨("r1", ⟨[peerA], some peerA, false, 1, 150⟩), by decide, rfl⟩
        · exact ⟨("r1", ⟨[peerA], some peerA, false, 2, 150⟩), by decide, rfl⟩
        · exact ⟨("r1", ⟨[peerA], some peerA, false, 3, 150⟩), by decide, rfl⟩
        · exact ⟨("r1", ⟨[peerA], some peerA, false, 4, 150⟩), by decide, rfl⟩)
  exact ⟨b, hb, by simpa using hc, hd, hf rfl⟩

/-- C7 (the code at the failing input): peer A reports `head150` to an empty
manager and fails to deliver it five times, so the record is finished with
retry count 5; peer B then reports the same head and asks for work. The record
of the head is unfinished again, with retry count 0, and `Get` has assigned it
to peer B. -/
theorem given_up_head_assigned_again :
    (runCalls 0 (noManagers, dmEmpty) callsGivenUp).2.recs =
      [("150<>bb", ⟨[peerA], none, true, 5, 150⟩)] ∧
    (runCalls 0 (runCalls 0 (noManagers, dmEmpty) callsGivenUp)
      [Call.set [head150] peerB, Call.get insertionSorter peerB]).2.recs =
      [("150<>bb", ⟨[peerB], some peerB, false, 0, 150⟩)] := by
  decide

/-! ## Convergence -/

theorem unfinishedCount_le (old new : Recs) (hlen : old.length = new.length)
    (hmono : ∀ (i : Nat) (a b : String × targetRec), old[i]? = some a → new[i]? = some b →
      a.2.finished = true → b.2.finished = true) :
    unfinishedCount new ≤ unfinishedCount old := by
  induction old generalizing new with
  | nil =>
    cases new with
    | nil => exact le_refl _
    | cons _ _ => simp at hlen
  | cons a old ih =>
    cases new with
    | nil => simp at hlen
    | cons b new =>
      have hrest := ih new (by simpa using hlen)
        (fun i a' b' ha hb => hmono (i + 1) a' b' (by simpa using ha) (by simpa using hb))
      have h0 := hmono 0 a b (by simp) (by simp)
      simp only [unfinishedCount, List.filter_cons] at hrest ⊢
      cases hfa : a.2.finished <;> cases hfb : b.2.finished <;> simp <;>
        first
        | omega
        | (rw [hfa, hfb] at h0; simp at h0)

theorem unfinishedCount_lt (old new : Recs) (hlen : old.length = new.length)
    (hmono : ∀ (i : Nat) (a b : String × targetRec), old[i]? = some a → new[i]? = some b →
      a.2.finished = true → b.2.finished = true)
    (hflip : ∃ (i : Nat) (a b : String × targetRec), old[i]? = some a ∧ new[i]? = some b ∧
      a.2.finished = false ∧ b.2.finished = true) :
    unfinishedCount new < unfinishedCount old := by
  induction old generalizing new with
  | nil =>
    obtain ⟨i, a, b, ha, _⟩ := hflip
    simp at ha
  | cons a old ih =>
    cases new with
    | nil => simp at hlen
    | cons b new =>
      have hlen' : old.length = new.length := by simpa using hlen
      have hmono' : ∀ (i : Nat) (a' b' : String × targetRec), old[i]? = some a' →
          new[i]? = some b' → a'.2.finished = true → b'.2.finished = true :=
        fun i a' b' ha hb => hmono (i + 1) a' b' (by simpa using ha) (by simpa using hb)
      have hle := unfinishedCount_le old new hlen' hmono'
      have h0 := hmono 0 a b (by simp) (by simp)
      obtain ⟨i, a', b', ha, hb, hfa, hfb⟩ := hflip
      cases i with
      | zero =>
        simp only [List.getElem?_cons_zero, Option.some.injEq] at ha hb
        subst ha
        subst hb
        simp only [unfinishedCount, List.filter_cons] at hle ⊢
        simp [hfa, hfb]
        omega
      | succ i =>
        have hlt := ih new hlen' hmono' ⟨i, a', b', by simpa using ha, by simpa using hb, hfa, hfb⟩
        simp only [unfinishedCount, List.filter_cons] at hlt ⊢
        cases hfa0 : a.2.finished <;> cases hfb0 : b.2.finished <;> simp <;>
          first
          | omega
          | (rw [hfa0, hfb0] at h0; simp at h0)

theorem giveUp_of_unfinished {r : targetRec} (h : (giveUp r).finished = false) :
    giveUp r = r := by
  unfold giveUp at h ⊢
  split
  · rename_i hc
    rw [if_pos hc] at h
    cases h
  · rfl

theorem finishOne_of_unfinished {n : Node} {r : targetRec}
    (h : (finishOne n true r).finished = false) :
    finishOne n true r = r ∧ r.downloading ≠ some n := by
  unfold finishOne at h ⊢
  split
  · rename_i hc
    rw [if_pos hc] at h
    cases h
  · rename_i hc
    exact ⟨rfl, hc⟩

/-- Position by position: a delivering round never clears `finished`, and
leaves a record that is still unfinished exactly as it was. -/
theorem okCycle_getElem? (srt : Sorter) (self : Addr) (s : Registry × Manager) (p : Node)
    (i : Nat) (a b : String × targetRec) (ha : s.2.recs[i]? = some a)
    (hb : (okCycle srt self s p).2.recs[i]? = some b) :
    (a.2.finished = true → b.2.finished = true) ∧ (b.2.finished = false → b = a) := by
  have hlen : i < (s.2.Get srt s.1 self p).dm.recs.length := by
    rw [get_length]
    exact (List.getElem?_eq_some_iff.1 ha).1
  obtain ⟨g, hg⟩ : ∃ g, (s.2.Get srt s.1 self p).dm.recs[i]? = some g :=
    ⟨_, List.getElem?_eq_getElem hlen⟩
  obtain ⟨_, _, _, _, e4, _⟩ := get_fields s.2 srt s.1 self p i a g ha hg
  obtain ⟨_, _, f3, _, _⟩ := finishOne_fields p true g.2
  obtain ⟨_, _, _, _, u5⟩ := giveUp_fields (finishOne p true g.2)
  have hga : g.2.finished = false → g.2.downloading ≠ some p → g = a := by
    intro hgf hgd
    rcases Nat.eq_zero_or_pos (eligibleCount p s.2.recs) with h0 | hpos
    · rw [get_of_zero s.2 srt s.1 self p h0] at hg
      rcases checkFinished_getElem? s.2 s.1 i with h | h
      · rw [h, ha] at hg
        exact (Option.some.inj hg).symm
      · rw [h, ha] at hg
        simp only [Option.map_some', Option.some.injEq] at hg
        subst hg
        rw [giveUp_of_unfinished hgf]
    · rw [get_getElem?_of_pos s.2 srt s.1 self p hpos, ha] at hg
      simp only [Option.map_some', Option.some.injEq] at hg
      split at hg
      · subst hg
        exact absurd rfl hgd
      · exact hg.symm
  have hcases := finished_getElem? (s.2.Get srt s.1 self p).dm (s.2.Get srt s.1 self p).managers
    p true i g b hg hb
  constructor
  · intro hfa
    rcases hcases with h | h
    · rw [h]
      exact f3 (e4 hfa)
    · rw [h]
      exact u5.2 (Or.inl (f3 (e4 hfa)))
  · intro hbf
    rcases hcases with h | h
    · rw [h] at hbf ⊢
      obtain ⟨h1, h2⟩ := finishOne_of_unfinished hbf
      rw [h1]
      rw [h1] at hbf
      exact hga hbf h2
    · rw [h] at hbf ⊢
      have h0 := giveUp_of_unfinished hbf
      rw [h0] at hbf ⊢
      obtain ⟨h1, h2⟩ := finishOne_of_unfinished hbf
      rw [h1]
      rw [h1] at hbf
      exact hga hbf h2

theorem okCycle_length (srt : Sorter) (self : Addr) (s : Registry × Manager) (p : Node) :
    (okCycle srt self s p).2.recs.length = s.2.recs.length := by
  unfold okCycle
  rw [finished_length, get_length]

theorem okCycle_datfile (srt : Sorter) (self : Addr) (s : Registry × Manager) (p : Node) :
    (okCycle srt self s p).2.datfile = s.2.datfile := by
  unfold okCycle
  rw [finished_datfile, get_datfile]

theorem okCycles_datfile (srt : Sorter) (self : Addr) (ps : List Node)
    (s : Registry × Manager) : (okCycles srt self ps s).2.datfile = s.2.datfile := by
  induction ps generalizing s with
  | nil => rfl
  | cons p ps ih =>
    simp only [okCycles]
    rw [ih, okCycle_datfile]

theorem finished_managers_of_registered (dm : Manager) (ms : Registry) (n : Node)
    (success : Bool) (x : Addr) (h : ms dm.datfile = some x) :
    (dm.Finished ms n success).1 =
      (if (dm.Finished ms n success).2.recs.all (fun kr => kr.2.finished)
        then ms.delete dm.datfile else ms) := by
  unfold Manager.Finished
  have h' : ms (Manager.mk dm.datfile
      (dm.recs.map (fun kr => (kr.1, finishOne n success kr.2)))).datfile = some x := h
  obtain ⟨h1, h2⟩ := checkFinished_of_registered _ ms x h'
  rw [h2, h1]

theorem okCycle_ready (srt : Sorter) (self : Addr) (s : Registry × Manager) (p : Node)
    (hpre : readyToFetch s.2.recs) : readyToFetch (okCycle srt self s p).2.recs := by
  intro b hb hbf
  obtain ⟨i, hi⟩ := List.mem_iff_getElem?.1 hb
  have hlt : i < s.2.recs.length := by
    rw [← okCycle_length srt self s p]
    exact (List.getElem?_eq_some_iff.1 hi).1
  have ha : s.2.recs[i]? = some s.2.recs[i] := List.getElem?_eq_getElem hlt
  have hba := (okCycle_getElem? srt self s p i _ b ha hi).2 hbf
  rw [hba] at hbf ⊢
  exact hpre _ (List.getElem_mem hlt) hbf

theorem serves_eligible {p : Node} {recs : Recs} (hpre : readyToFetch recs)
    (hs : servesUnfinished p recs = true) : 0 < eligibleCount p recs := by
  unfold servesUnfinished at hs
  obtain ⟨kr, hkr, hc⟩ := List.any_eq_true.1 hs
  simp only [Bool.and_eq_true, Bool.not_eq_true', decide_eq_true_eq] at hc
  obtain ⟨hd, hcnt, _⟩ := hpre kr hkr hc.1
  have he : eligible p kr.2 = true := (eligible_iff p kr.2).2 ⟨hc.2, hc.1, hd, hcnt⟩
  unfold eligibleCount
  exact List.length_pos_of_mem (List.mem_filter.2 ⟨hkr, he⟩)

/-- A delivering round for a peer with an eligible record finishes at least one
record that was unfinished, and its completion check runs. -/
theorem okCycle_progress (srt : Sorter) (self : Addr) (s : Registry × Manager) (p : Node)
    (hpos : 0 < eligibleCount p s.2.recs) :
    (∃ (i : Nat) (a b : String × targetRec), s.2.recs[i]? = some a ∧
      (okCycle srt self s p).2.recs[i]? = some b ∧
      a.2.finished = false ∧ b.2.finished = true) ∧
    (okCycle srt self s p).1 =
      (if (okCycle srt self s p).2.recs.all (fun kr => kr.2.finished)
        then (s.1.set s.2.datfile self).delete s.2.datfile
        else s.1.set s.2.datfile self) := by
  have hm : (s.2.Get srt s.1 self p).managers = s.1.set s.2.datfile self := by
    rw [get_of_pos s.2 srt s.1 self p hpos]
  have hreg : (s.2.Get srt s.1 self p).managers (s.2.Get srt s.1 self p).dm.datfile =
      some self := by
    rw [hm, get_datfile]
    exact registry_set_self _ _ _
  constructor
  · have hbl := batch_length s.2 srt p hpos
    obtain ⟨x, hx⟩ := List.exists_mem_of_length_pos (by omega : 0 < (batch s.2 srt p).length)
    obtain ⟨k, hk, he⟩ := mem_batch_old hx
    have hg : (s.2.Get srt s.1 self p).dm.recs[x.1]? =
        some (k, { x.2 with downloading := some p }) := by
      rw [get_getElem?_of_pos s.2 srt s.1 self p hpos, hk]
      simp only [Option.map_some', Option.some.injEq]
      rw [if_pos (List.mem_map.2 ⟨x, hx, rfl⟩)]
    have hrecs := finished_recs_of_registered _ _ p true self hreg
    refine ⟨x.1, (k, x.2), (k, giveUp (finishOne p true { x.2 with downloading := some p })),
      hk, ?_, ((eligible_iff p x.2).1 he).2.1, ?_⟩
    · unfold okCycle
      rw [hrecs]
      simp only [List.getElem?_map, hg, Option.map_some']
    · exact (giveUp_fields _).2.2.2.2.2 (Or.inl (by simp [finishOne]))
  · unfold okCycle
    rw [finished_managers_of_registered _ _ p true self hreg, hm, get_datfile]

theorem unfinishedCount_eq_zero {recs : Recs} :
    unfinishedCount recs = 0 ↔ ∀ kr ∈ recs, kr.2.finished = true := by
  simp [unfinishedCount, List.filter_eq_nil_iff]

theorem okCycle_decreases (srt : Sorter) (self : Addr) (s : Registry × Manager) (p : Node)
    (hpre : readyToFetch s.2.recs) (hs : servesUnfinished p s.2.recs = true) :
    unfinishedCount (okCycle srt self s p).2.recs < unfinishedCount s.2.recs :=
  unfinishedCount_lt _ _ (okCycle_length srt self s p).symm
    (fun i a b ha hb => (okCycle_getElem? srt self s p i a b ha hb).1)
    (okCycle_progress srt self s p (serves_eligible hpre hs)).1

theorem schedule_bound (srt : Sorter) (self : Addr) (ps : List Node) (s : Registry × Manager)
    (hpre : readyToFetch s.2.recs) (hv : validSchedule srt self ps s) :
    ps.length + unfinishedCount (okCycles srt self ps s).2.recs ≤ unfinishedCount s.2.recs ∧
      readyToFetch (okCycles srt self ps s).2.recs := by
  induction ps generalizing s with
  | nil => exact ⟨by simp [okCycles], hpre⟩
  | cons p ps ih =>
    obtain ⟨hs, hrest⟩ := hv
    obtain ⟨h1, h2⟩ := ih (okCycle srt self s p) (okCycle_ready srt self s p hpre) hrest
    have := okCycle_decreases srt self s p hpre hs
    simp only [okCycles, List.length_cons]
    exact ⟨by omega, h2⟩

theorem ready_progress {recs : Recs} (hpre : readyToFetch recs)
    (hn : unfinishedCount recs ≠ 0) : ∃ p, servesUnfinished p recs = true := by
  have hex : ∃ kr ∈ recs, kr.2.finished = false := by
    by_contra hno
    apply hn
    rw [unfinishedCount_eq_zero]
    intro kr hkr
    by_contra hf
    exact hno ⟨kr, hkr, by simpa using hf⟩
  obtain ⟨kr, hkr, hf⟩ := hex
  obtain ⟨_, _, hnode⟩ := hpre kr hkr hf
  obtain ⟨p, rest, hp⟩ := List.exists_cons_of_ne_nil hnode
  refine ⟨p, ?_⟩
  unfold servesUnfinished
  exact List.any_eq_true.2 ⟨kr, hkr, by simp [hf, hp]⟩

theorem schedule_exists (srt : Sorter) (self : Addr) (n : Nat) :
    ∀ (s : Registry × Manager), unfinishedCount s.2.recs = n → readyToFetch s.2.recs →
      ∃ ps, validSchedule srt self ps s ∧ unfinishedCount (okCycles srt self ps s).2.recs = 0 := by
  induction n using Nat.strong_induction_on with
  | _ n ih =>
    intro s hn hpre
    by_cases h0 : unfinishedCount s.2.recs = 0
    · exact ⟨[], trivial, h0⟩
    · obtain ⟨p, hp⟩ := ready_progress hpre h0
      have hlt := okCycle_decreases srt self s p hpre hp
      obtain ⟨ps, hv, hz⟩ := ih _ (hn ▸ hlt) (okCycle srt self s p) rfl
        (okCycle_ready srt self s p hpre)
      exact ⟨p :: ps, ⟨hp, hv⟩, hz⟩

theorem all_finished_of_count {recs : Recs} (h : unfinishedCount recs = 0) :
    recs.all (fun kr => kr.2.finished) = true := by
  rw [List.all_eq_true]
  exact unfinishedCount_eq_zero.1 h

/-- After the last round of a non-empty schedule that leaves no unfinished
record, the datfile is not in the table `managers`. -/
theorem schedule_end_registry (srt : Sorter) (self : Addr) (ps : List Node)
    (s : Registry × Manager) (hpre : readyToFetch s.2.recs)
    (hv : validSchedule srt self ps s) (hne : ps ≠ [])
    (hz : unfinishedCount (okCycles srt self ps s).2.recs = 0) :
    (okCycles srt self ps s).1 s.2.datfile = none := by
  induction ps generalizing s with
  | nil => exact absurd rfl hne
  | cons p ps ih =>
    obtain ⟨hs, hrest⟩ := hv
    simp only [okCycles] at hz ⊢
    by_cases hps : ps = []
    · subst hps
      simp only [okCycles] at hz ⊢
      rw [(okCycle_progress srt self s p (serves_eligible hpre hs)).2,
        if_pos (all_finished_of_count hz)]
      exact registry_delete_self _ _
    · have := ih (okCycle srt self s p) (okCycle_ready srt self s p hpre) hrest hps hz
      rw [okCycle_datfile] at this
      exact this

/-- With every record finished, `Get` returns `(-1, -1)` for any peer and leaves
the datfile out of the table `managers`. -/
theorem get_when_all_finished (dm : Manager) (srt : Sorter) (ms : Registry) (self : Addr)
    (q : Node) (hz : unfinishedCount dm.recs = 0) :
    (dm.Get srt ms self q).low = -1 ∧ (dm.Get srt ms self q).high = -1 ∧
      (dm.Get srt ms self q).managers dm.datfile = none := by
  have hall := unfinishedCount_eq_zero.1 hz
  have h0 : eligibleCount q dm.recs = 0 := by
    rw [eligibleCount_eq_zero]
    intro kr hkr
    by_contra hne
    have he : eligible q kr.2 = true := by simpa using hne
    rw [eligible_iff, hall kr hkr] at he
    cases he.2.1
  rw [get_of_zero dm srt ms self q h0]
  refine ⟨rfl, rfl, ?_⟩
  simp only
  cases hreg : ms dm.datfile with
  | none =>
    rw [checkFinished_of_unregistered dm ms hreg]
    exact hreg
  | some x =>
    rw [(checkFinished_of_registered dm ms x hreg).2]
    have : (dm.recs.map (fun kr => (kr.1, giveUp kr.2))).all (fun kr => kr.2.finished) = true := by
      rw [List.all_eq_true]
      intro kr hkr
      obtain ⟨kr0, hkr0, rfl⟩ := List.mem_map.1 hkr
      exact (giveUp_fields kr0.2).2.2.2.2.2 (Or.inl (hall kr0 hkr0))
    rw [if_pos this]
    exact registry_delete_self _ _

/-- C8: a manager whose unfinished records are all unassigned, below the retry
ceiling and have a candidate peer. Every round `Get(p)`, `Finished(p, true)` for
a candidate peer `p` of some unfinished record strictly decreases the number of
unfinished records and keeps that condition, so a run of such rounds has at
most as many rounds as there were unfinished records; as long as an unfinished
record is left a further round is possible, and a run that ends with no
unfinished record exists. At the end of such a run no record is unfinished,
`Get` returns `(-1, -1)` for every peer with the datfile out of the table
`managers`, and the datfile is out of the table already after the last round. -/
theorem cycles_converge (srt : Sorter) (self : Addr) (ms : Registry) (dm : Manager)
    (hpre : readyToFetch dm.recs) :
    (∀ p, servesUnfinished p dm.recs = true →
      unfinishedCount (okCycle srt self (ms, dm) p).2.recs < unfinishedCount dm.recs ∧
      readyToFetch (okCycle srt self (ms, dm) p).2.recs) ∧
    (∀ ps, validSchedule srt self ps (ms, dm) →
      ps.length + unfinishedCount (okCycles srt self ps (ms, dm)).2.recs ≤
        unfinishedCount dm.recs ∧
      (unfinishedCount (okCycles srt self ps (ms, dm)).2.recs ≠ 0 →
        ∃ p, servesUnfinished p (okCycles srt self ps (ms, dm)).2.recs = true)) ∧
    (∃ ps, validSchedule srt self ps (ms, dm) ∧ ps.length ≤ unfinishedCount dm.recs ∧
      unfinishedCount (okCycles srt self ps (ms, dm)).2.recs = 0) ∧
    (∀ ps, validSchedule srt self ps (ms, dm) →
      unfinishedCount (okCycles srt self ps (ms, dm)).2.recs = 0 →
        (∀ kr ∈ (okCycles srt self ps (ms, dm)).2.recs, kr.2.finished = true) ∧
        (∀ (srt' : Sorter) (self' : Addr) (q : Node),
          ((okCycles srt self ps (ms, dm)).2.Get srt' (okCycles srt self ps (ms, dm)).1
            self' q).low = -1 ∧
          ((okCycles srt self ps (ms, dm)).2.Get srt' (okCycles srt self ps (ms, dm)).1
            self' q).high = -1 ∧
          ((okCycles srt self ps (ms, dm)).2.Get srt' (okCycles srt self ps (ms, dm)).1
            self' q).managers dm.datfile = none) ∧
        (ps ≠ [] → (okCycles srt self ps (ms, dm)).1 dm.datfile = none)) := by
  refine ⟨?_, ?_, ?_, ?_⟩
  · intro p hp
    exact ⟨okCycle_decreases srt self (ms, dm) p hpre hp, okCycle_ready srt self (ms, dm) p hpre⟩
  · intro ps hv
    obtain ⟨h1, h2⟩ := schedule_bound srt self ps (ms, dm) hpre hv
    exact ⟨h1, ready_progress h2⟩
  · obtain ⟨ps, hv, hz⟩ := schedule_exists srt self _ (ms, dm) rfl hpre
    have hb : ps.length + unfinishedCount (okCycles srt self ps (ms, dm)).2.recs ≤
        unfinishedCount dm.recs := (schedule_bound srt self ps (ms, dm) hpre hv).1
    exact ⟨ps, hv, by omega, hz⟩
  · intro ps hv hz
    refine ⟨unfinishedCount_eq_zero.1 hz, ?_, ?_⟩
    · intro srt' self' q
      have := get_when_all_finished (okCycles srt self ps (ms, dm)).2 srt'
        (okCycles srt self ps (ms, dm)).1 self' q hz
      rw [okCycles_datfile] at this
      exact this
    · intro hne
      exact schedule_end_registry srt self ps (ms, dm) hpre hv hne hz

/-- C8 at a concrete state: two rounds, for peer A and then for peer B, finish
the three open records of `dmTwoPeers`, and the datfile is then out of the table
`managers`. -/
theorem cycles_converge_witness :
    unfinishedCount dmTwoPeers.recs = 3 ∧
    unfinishedCount (okCycles insertionSorter 0 [peerA, peerB] (noManagers, dmTwoPeers)).2.recs
      = 0 ∧
    (okCycles insertionSorter 0 [peerA, peerB] (noManagers, dmTwoPeers)).1 dmTwoPeers.datfile
      = none :=
  ⟨by decide, by decide,
    ((cycles_converge insertionSorter 0 noManagers dmTwoPeers
      (by unfold readyToFetch; decide)).2.2.2 [peerA, peerB]
      ⟨by decide, by decide, trivial⟩ (by decide)).2.2 (by decide)⟩

/-! ## The table `managers` -/

/-- C9: for a manager registered under its datfile. After `Finished(p, success)`
the records are the old ones passed through the loop body and the give-up step;
the datfile is out of the table `managers` exactly when all of them are
finished, and otherwise the table is unchanged (the same manager stays
registered). The same holds for a `Get` that finds no eligible record, whose
only effect on the records is the give-up step. -/
theorem removed_iff_all_finished (dm : Manager) (ms : Registry) (self : Addr) (p : Node)
    (success : Bool) (hreg : ms dm.datfile = some self) :
    ((dm.Finished ms p success).2.recs =
        dm.recs.map (fun kr => (kr.1, giveUp (finishOne p success kr.2))) ∧
      ((dm.Finished ms p success).1 dm.datfile = none ↔
        ∀ kr ∈ (dm.Finished ms p success).2.recs, kr.2.finished = true) ∧
      ((dm.Finished ms p success).1 dm.datfile ≠ none →
        (dm.Finished ms p success).1 = ms ∧
        (dm.Finished ms p success).1 dm.datfile = some self)) ∧
    (∀ (srt : Sorter) (q : Node), eligibleCount q dm.recs = 0 →
      (dm.Get srt ms self q).dm.recs = dm.recs.map (fun kr => (kr.1, giveUp kr.2)) ∧
      ((dm.Get srt ms self q).managers dm.datfile = none ↔
        ∀ kr ∈ (dm.Get srt ms self q).dm.recs, kr.2.finished = true) ∧
      ((dm.Get srt ms self q).managers dm.datfile ≠ none →
        (dm.Get srt ms self q).managers = ms ∧
        (dm.Get srt ms self q).managers dm.datfile = some self)) := by
  have key : ∀ (recs : Recs) (r : Registry),
      r = (if recs.all (fun kr => kr.2.finished) then ms.delete dm.datfile else ms) →
      (r dm.datfile = none ↔ ∀ kr ∈ recs, kr.2.finished = true) ∧
      (r dm.datfile ≠ none → r = ms ∧ r dm.datfile = some self) := by
    intro recs r hr
    by_cases hall : recs.all (fun kr => kr.2.finished) = true
    · rw [if_pos hall] at hr
      subst hr
      refine ⟨⟨fun _ => List.all_eq_true.1 hall, fun _ => registry_delete_self _ _⟩, ?_⟩
      intro hne
      exact absurd (registry_delete_self _ _) hne
    · rw [if_neg hall] at hr
      subst hr
      refine ⟨⟨fun h => ?_, fun h => absurd (List.all_eq_true.2 h) hall⟩, fun _ => ⟨rfl, hreg⟩⟩
      rw [hreg] at h
      cases h
  refine ⟨⟨finished_recs_of_registered dm ms p success self hreg,
    key _ _ (finished_managers_of_registered dm ms p success self hreg)⟩, ?_⟩
  intro srt q h0
  rw [get_of_zero dm srt ms self q h0]
  obtain ⟨h1, h2⟩ := checkFinished_of_registered dm ms self hreg
  refine ⟨h1, ?_⟩
  simp only
  rw [h1]
  exact key _ _ h2

/-- C9 at a concrete state: peer A delivers, two records of `dmBusy` remain
unfinished, and the datfile stays registered at the same address. -/
theorem removed_iff_all_finished_witness :
    regD dmBusy.datfile = some 0 ∧
    (dmBusy.Finished regD peerA true).1 dmBusy.datfile = some 0 ∧
    ((dmBusy.Finished regD peerA true).1 dmBusy.datfile = none ↔
      ∀ kr ∈ (dmBusy.Finished regD peerA true).2.recs, kr.2.finished = true) :=
  ⟨by decide, by decide,
    (removed_iff_all_finished dmBusy regD 0 peerA true (by decide)).1.2.1⟩

/-- C10 (as stated, refuted): from the start state, `NewManger` for a datfile
leaves the table `managers` without an entry for it, and a second `NewManger`
for the same datfile returns another manager than the first; both managers are
then allocated. -/
theorem newManger_twice_distinct :
    (NewManger world0 cacheEx).1.managers cacheEx.Datfile = none ∧
    (NewManger (NewManger world0 cacheEx).1 cacheEx).2 ≠ (NewManger world0 cacheEx).2 ∧
    (NewManger (NewManger world0 cacheEx).1 cacheEx).1.heap.length = 2 := by
  decide

/-- C10 (amended): when a manager is registered for the datfile, `NewManger`
returns it and changes nothing, so a second call returns it again. When none is
registered, `NewManger` allocates a new manager built from the local keys and
returns it without registering it: the table `managers` is unchanged, and a
second call allocates and returns another manager. A `Get` that finds an
eligible record registers its manager for the datfile, whatever the table held
for it before; two `NewManger` calls that directly follow such a `Get` on the
manager at address `a` both return `a` and change nothing. -/
theorem newManger_obtain (w : World) (ca : Cache) :
    (∀ d, w.managers ca.Datfile = some d →
      NewManger w ca = (w, d) ∧ NewManger (NewManger w ca).1 ca = (w, d)) ∧
    (w.managers ca.Datfile = none →
      (NewManger w ca).2 = w.heap.length ∧
      (NewManger w ca).1.heap = w.heap ++ [Manager.fresh ca] ∧
      (NewManger w ca).1.heap[(NewManger w ca).2]? = some (Manager.fresh ca) ∧
      (NewManger w ca).1.managers = w.managers ∧
      (NewManger (NewManger w ca).1 ca).2 = w.heap.length + 1 ∧
      (NewManger (NewManger w ca).1 ca).1.heap =
        w.heap ++ [Manager.fresh ca, Manager.fresh ca] ∧
      (NewManger (NewManger w ca).1 ca).1.managers = w.managers) ∧
    (∀ (srt : Sorter) (a : Addr) (n : Node) (dm : Manager), w.heap[a]? = some dm →
      dm.datfile = ca.Datfile → 0 < eligibleCount n dm.recs →
        ∃ w' lo hi, w.Get srt a n = some (w', lo, hi) ∧ w'.managers ca.Datfile = some a ∧
          NewManger w' ca = (w', a) ∧ NewManger (NewManger w' ca).1 ca = (w', a)) := by
  refine ⟨?_, ?_, ?_⟩
  · intro d hd
    simp [NewManger, hd]
  · intro hnone
    simp [NewManger, hnone]
  · intro srt a n dm hdm hdat hpos
    have hreg : (dm.Get srt w.managers a n).managers ca.Datfile = some a := by
      rw [get_of_pos dm srt w.managers a n hpos, hdat]
      exact registry_set_self _ _ _
    have hget : w.Get srt a n =
        some (World.mk (w.heap.set a (dm.Get srt w.managers a n).dm)
          (dm.Get srt w.managers a n).managers,
          (dm.Get srt w.managers a n).low, (dm.Get srt w.managers a n).high) := by
      simp only [World.Get, hdm]
    refine ⟨_, _, _, hget, hreg, ?_, ?_⟩
    · simp only [NewManger, hreg]
    · simp only [NewManger, hreg]

/-- C10 (amended) at a concrete state: `Get` for peer A on the manager at
address 0 registers it, and `NewManger` then returns address 0. -/
theorem newManger_obtain_witness :
    ∃ w' lo hi, world3.Get insertionSorter 0 peerA = some (w', lo, hi) ∧
      w'.managers cacheEx.Datfile = some 0 ∧ NewManger w' cacheEx = (w', 0) ∧
      NewManger (NewManger w' cacheEx).1 cacheEx = (w', 0) :=
  (newManger_obtain world3 cacheEx).2.2 insertionSorter 0 peerA dm3 (by decide) (by decide)
    (by decide)

/-! ## Finished records under `Set` -/

/-- The part of permanence that holds: `Get` and `Finished` keep a finished
record finished, at its position in the map, and `Get` does not assign it. -/
theorem call_keeps_finished (self : Addr) (s : Registry × Manager) (c : Call)
    (hc : c.isSet = false) (i : Nat) (a : String × targetRec) (ha : s.2.recs[i]? = some a)
    (hfin : a.2.finished = true) :
    ∃ b, (runCall self s c).2.recs[i]? = some b ∧ b.2.finished = true ∧
      (∀ srt n, c = Call.get srt n → b.2.downloading = a.2.downloading) := by
  cases c with
  | set res n => cases hc
  | get srt n =>
    obtain ⟨b, hb, hbf, hbd⟩ := get_keeps_finished s.2 srt s.1 self n i a ha hfin
    exact ⟨b, hb, hbf, fun _ _ _ => hbd⟩
  | finished n success =>
    have hlen : i < (s.2.Finished s.1 n success).2.recs.length := by
      rw [finished_length]
      exact (List.getElem?_eq_some_iff.1 ha).1
    obtain ⟨b, hb⟩ : ∃ b, (s.2.Finished s.1 n success).2.recs[i]? = some b :=
      ⟨_, List.getElem?_eq_getElem hlen⟩
    have f3 := (finishOne_fields n success a.2).2.2.1 hfin
    refine ⟨b, hb, ?_, fun _ _ hce => by cases hce⟩
    rcases finished_getElem? s.2 s.1 n success i a b ha hb with h | h
    · rw [h]; exact f3
    · rw [h]; exact (giveUp_fields _).2.2.2.2.2 (Or.inl f3)

/-- C11 (the code, where the claim fails): a finished record stored under the
key `Recstr()` of a head whose `Idstr()` key is not tracked is replaced, when a
peer reports that head, by a new unfinished record with that peer as its only
candidate. This is the state of every record that `Set` created and that was
then delivered or given up. -/
theorem set_replaces_finished_record (dm : Manager) (h : Head) (p : Node) (r : targetRec)
    (hfind : Recs.find h.Recstr dm.recs = some r) (hfin : r.finished = true)
    (hnew : Recs.find h.Idstr dm.recs = none) :
    Recs.find h.Recstr (dm.Set [h] p).recs = some (reportedRec p h).2 ∧
    (reportedRec p h).2.finished = false ∧
    Recs.find h.Recstr (dm.Set [h] p).recs ≠ Recs.find h.Recstr dm.recs := by
  have hset : (dm.Set [h] p).recs = Recs.insert h.Recstr (reportedRec p h).2 dm.recs := by
    simp [Manager.Set, Manager.setOne, hnew, reportedRec]
  have h1 : Recs.find h.Recstr (dm.Set [h] p).recs = some (reportedRec p h).2 := by
    rw [hset]; exact find_insert_self _ _ _
  refine ⟨h1, rfl, ?_⟩
  rw [h1, hfind]
  intro he
  rw [← Option.some.inj he] at hfin
  cases hfin

/-- C11 at the failing input: peer A reports `head150` to an empty manager, is
given it and delivers it, so the record is finished; peer B then reports the
same head, and the manager holds an unfinished record for it again. -/
theorem set_replaces_finished_record_witness :
    (runCalls 0 (noManagers, dmEmpty) callsDelivered).2.recs =
      [("150<>bb", ⟨[peerA], none, true, 0, 150⟩)] ∧
    ((runCalls 0 (noManagers, dmEmpty) callsDelivered).2.Set [head150] peerB).recs =
      [("150<>bb", ⟨[peerB], none, false, 0, 150⟩)] ∧
    Recs.find head150.Recstr
      ((runCalls 0 (noManagers, dmEmpty) callsDelivered).2.Set [head150] peerB).recs =
        some (reportedRec peerB head150).2 :=
  ⟨by decide, by decide,
    (set_replaces_finished_record (runCalls 0 (noManagers, dmEmpty) callsDelivered).2 head150
      peerB ⟨[peerA], none, true, 0, 150⟩ (by decide) (by decide) (by decide)).1⟩

/-! ## The assignment invariant -/

theorem mem_modify {k : String} {f : targetRec → targetRec} {recs : Recs}
    {b : String × targetRec} (h : b ∈ Recs.modify k f recs) :
    b ∈ recs ∨ ∃ a ∈ recs, b = (a.1, f a.2) := by
  induction recs with
  | nil => simp [Recs.modify] at h
  | cons kr rest ih =>
    obtain ⟨k0, r0⟩ := kr
    simp only [Recs.modify] at h
    split at h
    · rcases List.mem_cons.1 h with h | h
      · exact Or.inr ⟨(k0, r0), List.mem_cons_self _ _, h⟩
      · exact Or.inl (List.mem_cons_of_mem _ h)
    · rcases List.mem_cons.1 h with h | h
      · exact Or.inl (h ▸ List.mem_cons_self _ _)
      · rcases ih h with h' | ⟨a, ha, hb⟩
        · exact Or.inl (List.mem_cons_of_mem _ h')
        · exact Or.inr ⟨a, List.mem_cons_of_mem _ ha, hb⟩

theorem mem_insert {k : String} {r : targetRec} {recs : Recs} {b : String × targetRec}
    (h : b ∈ Recs.insert k r recs) : b ∈ recs ∨ b.2 = r := by
  induction recs with
  | nil =>
    simp only [Recs.insert, List.mem_singleton] at h
    exact Or.inr (by rw [h])
  | cons kr rest ih =>
    obtain ⟨k0, r0⟩ := kr
    simp only [Recs.insert] at h
    split at h
    · rcases List.mem_cons.1 h with h | h
      · exact Or.inr (by rw [h])
      · exact Or.inl (List.mem_cons_of_mem _ h)
    · rcases List.mem_cons.1 h with h | h
      · exact Or.inl (h ▸ List.mem_cons_self _ _)
      · rcases ih h with h' | h'
        · exact Or.inl (List.mem_cons_of_mem _ h')
        · exact Or.inr h'

theorem fresh_all_finishedRec (keys : List String) (acc : Recs)
    (hacc : ∀ kr ∈ acc, kr.2 = finishedRec) :
    ∀ kr ∈ keys.foldl (fun recs k => Recs.insert k finishedRec recs) acc,
      kr.2 = finishedRec := by
  induction keys generalizing acc with
  | nil => exact hacc
  | cons k rest ih =>
    simp only [List.foldl_cons]
    apply ih
    intro kr hkr
    rcases mem_insert hkr with h | h
    · exact hacc kr h
    · exact h

theorem recOk_finishedRec : recOk finishedRec := by
  refine ⟨by decide, ?_⟩
  intro q hq
  cases hq

theorem inv_fresh (ca : Cache) : assignmentInv (Manager.fresh ca).recs := by
  intro kr hkr
  have := fresh_all_finishedRec ca.keys [] (by simp) kr hkr
  rw [this]
  exact recOk_finishedRec

theorem inv_setOne (dm : Manager) (r : Head) (n : Node) (hinv : assignmentInv dm.recs) :
    assignmentInv (dm.setOne r n).recs := by
  unfold Manager.setOne
  split
  · split
    · intro b hb
      rcases mem_modify hb with h | ⟨a, ha, hba⟩
      · exact hinv b h
      · obtain ⟨h1, h2⟩ := hinv a ha
        rw [hba]
        refine ⟨h1, ?_⟩
        intro q hq
        obtain ⟨g1, g2, g3⟩ := h2 q hq
        exact ⟨g1, g2, List.mem_append_left _ g3⟩
    · exact hinv
  · intro b hb
    rcases mem_insert hb with h | h
    · exact hinv b h
    · rw [h]
      refine ⟨by simp, ?_⟩
      intro q hq
      cases hq

theorem inv_set (res : List Head) (n : Node) :
    ∀ (dm : Manager), assignmentInv dm.recs → assignmentInv (dm.Set res n).recs := by
  induction res with
  | nil => exact fun _ h => h
  | cons r rest ih =>
    intro dm hinv
    simp only [Manager.Set, List.foldl_cons]
    exact ih _ (inv_setOne dm r n hinv)

theorem inv_get (dm : Manager) (srt : Sorter) (ms : Registry) (self : Addr) (n : Node)
    (hinv : assignmentInv dm.recs) : assignmentInv (dm.Get srt ms self n).dm.recs := by
  intro b hb
  obtain ⟨i, hi⟩ := List.mem_iff_getElem?.1 hb
  have hlt : i < dm.recs.length := by
    rw [← get_length dm srt ms self n]
    exact (List.getElem?_eq_some_iff.1 hi).1
  have ha : dm.recs[i]? = some dm.recs[i] := List.getElem?_eq_getElem hlt
  obtain ⟨h1, h2⟩ := hinv _ (List.getElem_mem hlt)
  obtain ⟨_, e1, e2, _, _, e5⟩ := get_fields dm srt ms self n i _ b ha hi
  by_cases hne : (dm.recs[i]).2.downloading = b.2.downloading
  · refine ⟨e2 ▸ h1, ?_⟩
    intro q hq
    obtain ⟨g1, g2, g3⟩ := h2 q (hne.trans hq)
    refine ⟨?_, e2 ▸ g2, e1 ▸ g3⟩
    by_contra hf
    rcases e5 (by simpa using hf) with h | h
    · rw [g1] at h; cases h
    · omega
  · obtain ⟨he, hmark, _⟩ := get_changed dm srt ms self n i _ b ha hi hne
    obtain ⟨c1, c2, _, c4⟩ := (eligible_iff n _).1 he
    rw [hmark]
    refine ⟨le_of_lt c4, ?_⟩
    intro q hq
    simp only [Option.some.injEq] at hq
    subst hq
    exact ⟨c2, c4, c1⟩

theorem inv_finished (dm : Manager) (ms : Registry) (n : Node) (success : Bool)
    (hinv : assignmentInv dm.recs) : assignmentInv (dm.Finished ms n success).2.recs := by
  intro b hb
  obtain ⟨i, hi⟩ := List.mem_iff_getElem?.1 hb
  have hlt : i < dm.recs.length := by
    rw [← finished_length dm ms n success]
    exact (List.getElem?_eq_some_iff.1 hi).1
  have ha : dm.recs[i]? = some dm.recs[i] := List.getElem?_eq_getElem hlt
  obtain ⟨h1, h2⟩ := hinv _ (List.getElem_mem hlt)
  have hone : recOk (finishOne n success (dm.recs[i]).2) := by
    unfold finishOne
    split
    · rename_i hd
      obtain ⟨_, g2, _⟩ := h2 n hd
      cases success
      · refine ⟨by simp only [Bool.false_eq_true, if_false]; omega, ?_⟩
        intro q hq
        simp at hq
      · refine ⟨by simpa using h1, ?_⟩
        intro q hq
        simp at hq
    · exact ⟨h1, h2⟩
  have hgive : ∀ r, recOk r → recOk (giveUp r) := by
    intro r hr
    unfold giveUp
    split
    · rename_i hc
      refine ⟨hr.1, ?_⟩
      intro q hq
      obtain ⟨_, g2, _⟩ := hr.2 q hq
      omega
    · exact hr
  rcases finished_getElem? dm ms n success i _ b ha hi with h | h
  · rw [h]; exact hone
  · rw [h]; exact hgive _ hone

/-- C18: in every state of a manager reachable from `NewManger` by `Set`, `Get`
and `Finished` calls, every record has a retry count of at most 5, and every
record assigned to a peer is unfinished, has a retry count below 5 and lists
that peer among its candidates. -/
theorem assignment_invariant (dm : Manager) (h : Reachable dm) :
    ∀ kr ∈ dm.recs, kr.2.count ≤ 5 ∧
      ∀ q, kr.2.downloading = some q →
        kr.2.finished = false ∧ kr.2.count < 5 ∧ q ∈ kr.2.node := by
  have hinv : assignmentInv dm.recs := by
    induction h with
    | fresh ca => exact inv_fresh ca
    | call dm ms self c _ ih =>
      cases c with
      | set res n => exact inv_set res n dm ih
      | get srt n => exact inv_get dm srt ms self n ih
      | finished n success => exact inv_finished dm ms n success ih
  exact hinv

/-- C18 at a concrete reachable state: after peer A reported `head150` and was
given it, the record is assigned to A, unfinished, and lists A. -/
theorem assignment_invariant_witness :
    (runCall 0 (noManagers, (runCall 0 (noManagers, Manager.fresh cacheEx)
        (Call.set [head150] peerA)).2) (Call.get insertionSorter peerA)).2.recs =
      [("100_aa", finishedRec), ("150<>bb", ⟨[peerA], some peerA, false, 0, 150⟩)] ∧
    ∀ kr ∈ (runCall 0 (noManagers, (runCall 0 (noManagers, Manager.fresh cacheEx)
        (Call.set [head150] peerA)).2) (Call.get insertionSorter peerA)).2.recs,
      kr.2.count ≤ 5 ∧
        ∀ q, kr.2.downloading = some q →
          kr.2.finished = false ∧ kr.2.count < 5 ∧ q ∈ kr.2.node :=
  ⟨by decide,
    assignment_invariant _
      (Reachable.call _ noManagers 0 (Call.get insertionSorter peerA)
        (Reachable.call _ noManagers 0 (Call.set [head150] peerA)
          (Reachable.fresh cacheEx)))⟩

/-! ## Independence of the order -/

theorem selectFrom_stamps (n : Node) (off : Nat) (recs : Recs) :
    (selectFrom n off recs).map (fun x => x.2.stamp) = eligibleStamps n recs := by
  induction recs generalizing off with
  | nil => rfl
  | cons kr rest ih =>
    obtain ⟨k, r⟩ := kr
    simp only [selectFrom, eligibleStamps, List.filter_cons]
    split
    · simp only [List.map_cons]
      rw [ih (off + 1)]
      rfl
    · rw [ih (off + 1)]
      rfl

theorem eligibleStamps_length (n : Node) (recs : Recs) :
    (eligibleStamps n recs).length = eligibleCount n recs := by
  simp [eligibleStamps, eligibleCount]

theorem stampAt_eq_map (s : List (Nat × targetRec)) (i : Nat) :
    stampAt s i = ((s.map (fun x => x.2.stamp))[i]?).getD 0 := by
  unfold stampAt
  rw [List.getElem?_map]
  cases s[i]? <;> rfl

/-- The stamps of the sorted slice are the eligible stamps in descending order,
whatever the sort does with ties and whatever the order of the map. -/
theorem sortedSel_stamps_eq (dm1 dm2 : Manager) (srt1 srt2 : Sorter) (p : Node)
    (h : (eligibleStamps p dm1.recs).Perm (eligibleStamps p dm2.recs)) :
    (sortedSel dm1 srt1 p).map (fun x => x.2.stamp) =
      (sortedSel dm2 srt2 p).map (fun x => x.2.stamp) := by
  have hperm : ∀ (dm : Manager) (srt : Sorter),
      ((sortedSel dm srt p).map (fun x => x.2.stamp)).Perm (eligibleStamps p dm.recs) := by
    intro dm srt
    rw [← selectFrom_stamps p 0 dm.recs]
    exact (srt.perm _).map _
  have hsorted : ∀ (dm : Manager) (srt : Sorter),
      ((sortedSel dm srt p).map (fun x => x.2.stamp)).Sorted (fun a b : Int => b ≤ a) := by
    intro dm srt
    exact List.pairwise_map.2 (srt.sorted _)
  haveI : IsAntisymm Int (fun a b : Int => b ≤ a) := ⟨fun _ _ h1 h2 => le_antisymm h2 h1⟩
  exact List.eq_of_perm_of_sorted (((hperm dm1 srt1).trans h).trans (hperm dm2 srt2).symm)
    (hsorted dm1 srt1) (hsorted dm2 srt2)

/-- C19: the pair returned by `Get` and the number of records it assigns depend
only on the multiset of the stamps of the eligible records: two managers whose
eligible stamps are the same up to order (in particular the same records in
another iteration order), sorted by any two implementations of the sort, give
the same `low`, the same `high` and the same number of assigned records. -/
theorem get_order_independent (dm1 dm2 : Manager) (srt1 srt2 : Sorter)
    (ms1 ms2 : Registry) (self1 self2 : Addr) (p : Node)
    (h : (eligibleStamps p dm1.recs).Perm (eligibleStamps p dm2.recs)) :
    (dm1.Get srt1 ms1 self1 p).low = (dm2.Get srt2 ms2 self2 p).low ∧
    (dm1.Get srt1 ms1 self1 p).high = (dm2.Get srt2 ms2 self2 p).high ∧
    (assignedByCall dm1.recs (dm1.Get srt1 ms1 self1 p).dm.recs).length =
      (assignedByCall dm2.recs (dm2.Get srt2 ms2 self2 p).dm.recs).length := by
  have hcount : eligibleCount p dm1.recs = eligibleCount p dm2.recs := by
    rw [← eligibleStamps_length, ← eligibleStamps_length]
    exact h.length_eq
  rcases Nat.eq_zero_or_pos (eligibleCount p dm1.recs) with h0 | hpos
  · have h0' : eligibleCount p dm2.recs = 0 := hcount ▸ h0
    rw [assignedByCall_get_zero dm1 srt1 ms1 self1 p h0,
      assignedByCall_get_zero dm2 srt2 ms2 self2 p h0',
      get_of_zero dm1 srt1 ms1 self1 p h0, get_of_zero dm2 srt2 ms2 self2 p h0']
    exact ⟨rfl, rfl, rfl⟩
  · have hpos' : 0 < eligibleCount p dm2.recs := hcount ▸ hpos
    have hst := sortedSel_stamps_eq dm1 dm2 srt1 srt2 p h
    rw [assignedByCall_get_length dm1 srt1 ms1 self1 p hpos,
      assignedByCall_get_length dm2 srt2 ms2 self2 p hpos',
      get_of_pos dm1 srt1 ms1 self1 p hpos, get_of_pos dm2 srt2 ms2 self2 p hpos']
    simp only
    rw [stampAt_eq_map, stampAt_eq_map, stampAt_eq_map, stampAt_eq_map, hst, hcount]
    exact ⟨rfl, rfl, rfl⟩

/-- C19 at a concrete pair: the records of `dmTies`, which has equal stamps, in
two iteration orders and under two sorts that order ties differently. -/
theorem get_order_independent_witness :
    (dmTies.Get insertionSorter noManagers 0 peerA).low =
      (dmTiesPerm.Get insertionSorterRev noManagers 0 peerA).low ∧
    (dmTies.Get insertionSorter noManagers 0 peerA).high =
      (dmTiesPerm.Get insertionSorterRev noManagers 0 peerA).high ∧
    (assignedByCall dmTies.recs (dmTies.Get insertionSorter noManagers 0 peerA).dm.recs).length =
      (assignedByCall dmTiesPerm.recs
        (dmTiesPerm.Get insertionSorterRev noManagers 0 peerA).dm.recs).length :=
  get_order_independent dmTies dmTiesPerm insertionSorter insertionSorterRev noManagers
    noManagers 0 0 peerA (by decide)

/-! ## `getWithRange` -/

/-- A round of the loop that goes on to the next one has finished a record. -/
theorem okCycle_decreases_of_low (srt : Sorter) (self : Addr) (n : Node)
    (s : Registry × Manager) (hlow : ¬ (s.2.Get srt s.1 self n).low ≤ 0) :
    unfinishedCount (okCycle srt self s n).2.recs < unfinishedCount s.2.recs := by
  have hpos : 0 < eligibleCount n s.2.recs := by
    rcases Nat.eq_zero_or_pos (eligibleCount n s.2.recs) with h0 | hpos
    · rw [get_of_zero s.2 srt s.1 self n h0] at hlow
      exact absurd (by decide : (-1 : Int) ≤ 0) hlow
    · exact hpos
  exact unfinishedCount_lt _ _ (okCycle_length srt self s n).symm
    (fun i a b ha hb => (okCycle_getElem? srt self s n i a b ha hb).1)
    (okCycle_progress srt self s n hpos).1

/-- The loop returns when it is given more rounds than there are unfinished
records. -/
theorem getWithRangeLoop_returns (srt : Sorter) (self : Addr) (n : Node) (talk : Nat → Fetch)
    (fuel : Nat) :
    ∀ (round : Nat) (got : Bool) (reqs : List (Int × Int)) (s : Registry × Manager),
      unfinishedCount s.2.recs < fuel →
      ∃ r, getWithRangeLoop srt self n talk fuel round got reqs s = some r := by
  induction fuel with
  | zero => intro _ _ _ _ h; omega
  | succ fuel ih =>
    intro round got reqs s h
    simp only [getWithRangeLoop]
    split
    · exact ⟨_, rfl⟩
    · rename_i hlow
      split
      · exact ⟨_, rfl⟩
      · have := okCycle_decreases_of_low srt self n s hlow
        exact ih _ _ _ _ (by omega)

/-- `getWithRange` always returns. -/
theorem getWithRange_returns (srt : Sorter) (self : Addr) (n : Node) (talk : Nat → Fetch)
    (s : Registry × Manager) : ∃ r, getWithRange srt self n talk s = some r :=
  getWithRangeLoop_returns srt self n talk _ 0 false [] s (Nat.lt_succ_self _)

/-- C12 (the code at the failing inputs): peer A is given the twelve records of
`dm12` in two batches, stamps 6 to 12 and then 1 to 5. When the first fetch
stores three records and the second stores none, `getWithRange` returns false;
when the first fetch stores three records and the second fails in the
transport, it returns false as well. -/
theorem pull_forgets_earlier_batches :
    (getWithRange insertionSorter 0 peerA talkStoresOnce (noManagers, dm12)).map
      (fun r => (r.got, r.requests)) = some (false, [(6, 12), (1, 5)]) ∧
    (getWithRange insertionSorter 0 peerA talkThenFails (noManagers, dm12)).map
      (fun r => (r.got, r.requests)) = some (false, [(6, 12), (1, 5)]) := by
  decide

/-- C17 (the code, where the claim fails): when `Get` assigns a batch whose
lowest stamp is not positive, `getWithRange` returns at once: it issues no
request and calls `Finished` for no one, so the state it leaves is the state
after `Get`, in which the records of the batch are assigned to the peer and
unfinished. -/
theorem pull_stops_on_nonpositive_low (srt : Sorter) (self : Addr) (n : Node)
    (talk : Nat → Fetch) (s : Registry × Manager) (hpos : 0 < eligibleCount n s.2.recs)
    (hlow : (s.2.Get srt s.1 self n).low ≤ 0) :
    getWithRange srt self n talk s =
      some ⟨false, (s.2.Get srt s.1 self n).managers, (s.2.Get srt s.1 self n).dm, []⟩ ∧
    assignedByCall s.2.recs (s.2.Get srt s.1 self n).dm.recs ≠ [] ∧
    ∀ x ∈ assignedByCall s.2.recs (s.2.Get srt s.1 self n).dm.recs,
      x ∈ (s.2.Get srt s.1 self n).dm.recs ∧ x.2.downloading = some n ∧
        x.2.finished = false := by
  refine ⟨?_, ?_, ?_⟩
  · simp only [getWithRange, getWithRangeLoop, hlow, if_true]
  · intro hnil
    have := assignedByCall_get_length s.2 srt s.1 self n hpos
    rw [hnil] at this
    simp at this
  · intro x hx
    obtain ⟨i, a, _, hb, _⟩ := mem_assignedByCall.1 hx
    obtain ⟨_, k, r, hbm, _, rfl⟩ := (mem_assignedByCall_get hpos).1 hx
    obtain ⟨_, _, he⟩ := mem_batch_old hbm
    exact ⟨List.mem_iff_getElem?.2 ⟨i, hb⟩, rfl, ((eligible_iff n r).1 he).2.1⟩

/-- C17 at the failing input: one open record with stamp 0 that peer A can
supply. `getWithRange` returns without a request and the record stays assigned
to peer A. -/
theorem pull_stops_on_nonpositive_low_witness :
    (getWithRange insertionSorter 0 peerA talkStoresOnce (noManagers, dmStampZero)).map
      (fun r => (r.got, r.requests, r.dm.recs)) =
        some (false, [], [("r1", ⟨[peerA], some peerA, false, 0, 0⟩)]) ∧
    assignedByCall dmStampZero.recs
      (dmStampZero.Get insertionSorter noManagers 0 peerA).dm.recs ≠ [] :=
  ⟨by decide,
    (pull_stops_on_nonpositive_low insertionSorter 0 peerA talkStoresOnce
      (noManagers, dmStampZero) (by decide) (by decide)).2.1⟩

/-! ## `headWithRange` -/

theorem wrapInt64_of_range {x : Int} (h1 : -(2 ^ 63) ≤ x) (h2 : x < 2 ^ 63) :
    wrapInt64 x = x := by
  unfold wrapInt64
  rw [Int.emod_eq_of_lt (by omega) (by omega)]
  omega

/-- C13 (as stated, refuted): with a window of 0 and a newest local stamp of
500 the bound sent is 0, not `max(0, 500 - 0)`; and a stamp so low that the
subtraction leaves the range of `int64` gives a positive bound. -/
theorem head_begin_window_zero :
    headBegin 1000 0 (some 500) = 0 ∧ max 0 ((500 : Int) - 0) = 500 ∧
    headBegin 1000 1 (some (-(2 ^ 63))) = 2 ^ 63 - 1 ∧ max 0 (-(2 ^ 63) - (1 : Int)) = 0 := by
  decide

/-- C13 (amended): for a current time and a window that are not negative, the
bound sent in the `/head` request is never negative; it is 0 when the window is
0; and when the window is positive it is `max(0, s - window)` for a newest local
stamp `s` for which `s - window` is in the range of `int64` (every stamp that is
not negative), and `max(0, now - window)` when there is no newest entry. -/
theorem head_begin_bound (now window : Int) (newest : Option Int)
    (hnow : 0 ≤ now) (hnow' : now < 2 ^ 63) (hw : 0 ≤ window) (hw' : window < 2 ^ 63) :
    0 ≤ headBegin now window newest ∧
    (window = 0 → headBegin now window newest = 0) ∧
    (0 < window → newest = none → headBegin now window newest = max 0 (now - window)) ∧
    (0 < window → ∀ s, newest = some s → -(2 ^ 63) ≤ s - window → s < 2 ^ 63 →
      headBegin now window newest = max 0 (s - window)) := by
  refine ⟨?_, ?_, ?_, ?_⟩
  · unfold headBegin
    simp only
    split
    · exact le_refl _
    · rename_i h
      push_neg at h
      exact h.2
  · intro h0
    simp [headBegin, h0]
  · intro hpos hn
    subst hn
    have hwrap : wrapInt64 (now - window) = now - window :=
      wrapInt64_of_range (by omega) (by omega)
    simp only [headBegin, hwrap]
    rcases lt_or_le (now - window) 0 with h | h
    · rw [if_pos (Or.inr h), max_eq_left (le_of_lt h)]
    · rw [if_neg (by push_neg; exact ⟨by omega, h⟩), max_eq_right h]
  · intro hpos s hs h1 h2
    subst hs
    have hwrap : wrapInt64 (s - window) = s - window :=
      wrapInt64_of_range h1 (by omega)
    simp only [headBegin, hwrap]
    rcases lt_or_le (s - window) 0 with h | h
    · rw [if_pos (Or.inr h), max_eq_left (le_of_lt h)]
    · rw [if_neg (by push_neg; exact ⟨by omega, h⟩), max_eq_right h]

/-- C13 (amended) at a concrete input: time 1000, window 300, newest local
stamp 500 give the bound 200. -/
theorem head_begin_bound_witness : headBegin 1000 300 (some 500) = max 0 (500 - 300) :=
  (head_begin_bound 1000 300 (some 500) (by decide) (by decide) (by decide)
    (by decide)).2.2.2 (by decide) 500 rfl (by decide) (by decide)

/-- C14 (as stated, refuted): on an empty `/head` response, a `/have` call that
returns an error removes a known peer from the lookup table of the datfile, and
a `/have` call that answers YES adds a peer that was not known. -/
theorem probe_have_error_removes :
    peerA ∈ tableA "d" ∧
    peerA ∉ (headWithRange (fun _ => []) (some []) none "d" tableA peerA dmEmpty).table "d" ∧
    peerA ∉ tableEmpty "d" ∧
    peerA ∈ (headWithRange (fun _ => []) (some []) (some ["YES"]) "d" tableEmpty peerA
      dmEmpty).table "d" := by
  decide

/-- C14 (amended): on an empty `/head` response `headWithRange` returns false
and leaves the manager as it was. The peer is removed from the lookup table of
the datfile when the `/have` call returns an error, no line, or a first line
other than YES, and it is appended to it when the first line is YES; so after
the call the peer is in the table of the datfile exactly in the YES case. The
tables of other datfiles are not changed. -/
theorem probe_empty_head (parse : List String → List Head) (haveRes : Option (List String))
    (datfile : String) (table : Table) (n : Node) (dm : Manager) :
    (headWithRange parse (some []) haveRes datfile table n dm).found = false ∧
    (headWithRange parse (some []) haveRes datfile table n dm).dm = dm ∧
    (haveYes haveRes = false →
      (headWithRange parse (some []) haveRes datfile table n dm).table =
        RemoveFromTable table datfile n) ∧
    (haveYes haveRes = true →
      (headWithRange parse (some []) haveRes datfile table n dm).table =
        AppendToTable table datfile n) ∧
    (n ∈ (headWithRange parse (some []) haveRes datfile table n dm).table datfile ↔
      haveYes haveRes = true) ∧
    (∀ d, d ≠ datfile →
      (headWithRange parse (some []) haveRes datfile table n dm).table d = table d) := by
  cases hy : haveYes haveRes
  · refine ⟨?_, ?_, ?_, ?_, ?_, ?_⟩
    · simp [headWithRange, hy]
    · simp [headWithRange, hy]
    · intro _
      simp [headWithRange, hy]
    · intro h
      cases h
    · simp [headWithRange, hy, RemoveFromTable]
    · intro d hd
      simp [headWithRange, hy, RemoveFromTable, hd]
  · refine ⟨?_, ?_, ?_, ?_, ?_, ?_⟩
    · simp [headWithRange, hy]
    · simp [headWithRange, hy]
    · intro h
      cases h
    · intro _
      simp [headWithRange, hy]
    · simp only [headWithRange, hy, List.length_nil, if_true, Bool.not_true, Bool.false_eq_true,
        if_false, AppendToTable, iff_true]
      split
      · assumption
      · exact List.mem_append_right _ (List.mem_singleton_self n)
    · intro d hd
      simp [headWithRange, hy, AppendToTable, hd]

/-- C14 (amended) at a concrete input: a `/have` answer other than YES removes
peer A from the table of the datfile. -/
theorem probe_empty_head_witness :
    haveYes (some ["NO"]) = false ∧
    (headWithRange (fun _ => []) (some []) (some ["NO"]) "d" tableA peerA dmEmpty).table =
      RemoveFromTable tableA "d" peerA :=
  ⟨by decide,
    (probe_empty_head (fun _ => []) (some ["NO"]) "d" tableA peerA dmEmpty).2.2.1 (by decide)⟩

/-! ## The recent list -/

theorem removeOldsLoop_of_decodes (decode : String → Option Int) (t : Int) (b : Bucket)
    (hdec : ∀ kv ∈ b, (decode kv.2).isSome = true) :
    removeOldsLoop decode t b = some (b.filter (fun kv => newerThan decode t kv.2)) := by
  induction b with
  | nil => rfl
  | cons kv rest ih =>
    obtain ⟨k, v⟩ := kv
    have h0 := hdec (k, v) (List.mem_cons_self _ _)
    obtain ⟨stamp, hs⟩ := Option.isSome_iff_exists.1 h0
    have ih' := ih (fun kv hkv => hdec kv (List.mem_cons_of_mem _ hkv))
    simp only at hs
    simp only [removeOldsLoop, hs, ih', List.filter_cons, Option.map_some', newerThan]
    by_cases hgt : stamp > t
    · simp [hgt]
    · simp [hgt]

/-- C15: with a positive retention window and a bucket whose values all decode,
`RemoveOlds` leaves exactly the entries whose stamp is greater than the cutoff,
each as it was and whatever its datfile; the cutoff is `now - window` for a
current time that is not negative. With a window of 0 or less the bucket is left
as it is. -/
theorem removeOlds_retention (decode : String → Option Int) (window now : Int) (b : Bucket) :
    (0 < window → (∀ kv ∈ b, (decode kv.2).isSome = true) →
      RemoveOlds decode window now (some b) =
        some (b.filter (fun kv => newerThan decode (cutoff now window) kv.2))) ∧
    (0 < window → window < 2 ^ 63 → 0 ≤ now → now < 2 ^ 63 →
      cutoff now window = now - window) ∧
    (window ≤ 0 → ∀ db, RemoveOlds decode window now db = db) := by
  refine ⟨?_, ?_, ?_⟩
  · intro hw hdec
    have hw' : ¬ window ≤ 0 := by omega
    simp only [RemoveOlds, hw', if_false, removeOldsLoop_of_decodes decode _ b hdec]
  · intro h1 h2 h3 h4
    exact wrapInt64_of_range (by omega) (by omega)
  · intro hw db
    simp only [RemoveOlds, hw, if_true]

/-- C15 at the example: cutoff 950, stamps 900 and 990; the entry with stamp
990 is what remains. -/
theorem removeOlds_retention_witness :
    cutoff 1000 50 = 950 ∧
    RemoveOlds decodeEx 50 1000 (some bucketEx) = some [("d2_990_bb", "new")] :=
  ⟨by decide,
    ((removeOlds_retention decodeEx 50 1000 bucketEx).1 (by decide) (by decide)).trans
      (by decide)⟩

theorem put_keys (k v : String) (b : Bucket) :
    (Bucket.put k v b).map Prod.fst =
      if k ∈ b.map Prod.fst then b.map Prod.fst else b.map Prod.fst ++ [k] := by
  induction b with
  | nil => simp [Bucket.put]
  | cons kv rest ih =>
    obtain ⟨k0, v0⟩ := kv
    simp only [Bucket.put]
    by_cases h : k0 = k
    · simp [h]
    · have hne : ¬ k = k0 := fun e => h e.symm
      simp only [if_neg h, List.map_cons, ih, List.mem_cons, hne, false_or]
      split <;> simp

theorem appendHead_keys (committed b : Bucket) (rec : RecentRec) :
    (∀ k ∈ b.map Prod.fst, k ∈ (appendHead committed b rec).map Prod.fst) ∧
    ((b.map Prod.fst).Nodup → ((appendHead committed b rec).map Prod.fst).Nodup) ∧
    ((∀ k ∈ committed.map Prod.fst, k ∈ b.map Prod.fst) →
      rec.key ∈ (appendHead committed b rec).map Prod.fst) := by
  unfold appendHead
  by_cases hf : find committed rec.key = true
  · rw [if_pos hf]
    refine ⟨fun k hk => hk, id, ?_⟩
    intro hsub
    unfold find at hf
    obtain ⟨kv, hkv, he⟩ := List.any_eq_true.1 hf
    have he' : kv.1 = rec.key := by simpa using he
    exact hsub _ (he' ▸ List.mem_map_of_mem _ hkv)
  · rw [if_neg hf, put_keys]
    split
    · rename_i hin
      exact ⟨fun k hk => hk, id, fun _ => hin⟩
    · rename_i hnin
      refine ⟨fun k hk => List.mem_append_left _ hk, ?_, fun _ => by simp⟩
      intro hnd
      exact List.Nodup.append hnd (List.nodup_singleton _)
        (by simpa [List.disjoint_singleton] using hnin)

theorem addLine_of_parse (parse : String → Option RecentRec) (committed : Bucket) (n : Node)
    (st : RecentState) (line : String) (rec : RecentRec) (h : parse line = some rec) :
    (addLine parse committed n st line).bucket = appendHead committed st.bucket rec ∧
    (addLine parse committed n st line).table =
      (if rec.tags = [] then st.table else AppendToTable st.table rec.Datfile n) ∧
    (addLine parse committed n st line).suggest =
      (if rec.tags = [] then st.suggest else st.suggest ++ [(rec.Datfile, rec.tags)]) := by
  unfold addLine
  rw [h]
  by_cases ht : rec.tags = []
  · simp [ht]
  · have : rec.tags.length > 0 := List.length_pos.2 ht
    simp [ht, this]

theorem appendToTable_mono (t : Table) (d : String) (n : Node) (d' : String) (x : Node)
    (h : x ∈ t d') : x ∈ AppendToTable t d n d' := by
  unfold AppendToTable
  split
  · rename_i hd
    subst hd
    split
    · exact h
    · exact List.mem_append_left _ h
  · exact h

theorem appendToTable_self (t : Table) (d : String) (n : Node) : n ∈ AppendToTable t d n d := by
  unfold AppendToTable
  rw [if_pos rfl]
  split
  · assumption
  · exact List.mem_append_right _ (List.mem_singleton_self n)

theorem appendToTable_other (t : Table) (d : String) (n : Node) (d' : String) (h : d' ≠ d) :
    AppendToTable t d n d' = t d' := by
  unfold AppendToTable
  rw [if_neg h]

/-- What the loop of `get` keeps and adds, by induction over the lines. -/
theorem foldl_addLine (parse : String → Option RecentRec) (committed : Bucket) (n : Node)
    (lines : List String) :
    ∀ (st : RecentState),
      (res : RecentState) → res = lines.foldl (addLine parse committed n) st →
      (∀ k ∈ st.bucket.map Prod.fst, k ∈ res.bucket.map Prod.fst) ∧
      ((st.bucket.map Prod.fst).Nodup → (res.bucket.map Prod.fst).Nodup) ∧
      (∀ d x, x ∈ st.table d → x ∈ res.table d) ∧
      ((∀ k ∈ committed.map Prod.fst, k ∈ st.bucket.map Prod.fst) →
        ∀ line ∈ lines, ∀ rec, parse line = some rec → rec.key ∈ res.bucket.map Prod.fst) ∧
      (∀ line ∈ lines, ∀ rec, parse line = some rec → rec.tags ≠ [] →
        n ∈ res.table rec.Datfile) ∧
      (∀ d, (∀ line ∈ lines, ∀ rec, parse line = some rec → rec.Datfile = d → rec.tags = []) →
        res.table d = st.table d) := by
  induction lines with
  | nil =>
    intro st res hres
    subst hres
    exact ⟨fun _ h => h, id, fun _ _ h => h, fun _ _ h => absurd h (List.not_mem_nil _),
      fun _ h => absurd h (List.not_mem_nil _), fun _ _ => rfl⟩
  | cons line rest ih =>
    intro st res hres
    simp only [List.foldl_cons] at hres
    obtain ⟨i1, i2, i3, i4, i5, i6⟩ := ih (addLine parse committed n st line) res hres
    cases hp : parse line with
    | none =>
      have hst : addLine parse committed n st line = st := by simp [addLine, hp]
      rw [hst] at i1 i2 i3 i4 i6
      refine ⟨i1, i2, i3, ?_, ?_, ?_⟩
      · intro hsub l hl rec hrec
        rcases List.mem_cons.1 hl with h | h
        · rw [h, hp] at hrec; cases hrec
        · exact i4 hsub l h rec hrec
      · intro l hl rec hrec ht
        rcases List.mem_cons.1 hl with h | h
        · rw [h, hp] at hrec; cases hrec
        · exact i5 l h rec hrec ht
      · intro d hd
        exact i6 d (fun l hl => hd l (List.mem_cons_of_mem _ hl))
    | some rec0 =>
      obtain ⟨hb, ht, _⟩ := addLine_of_parse parse committed n st line rec0 hp
      obtain ⟨a1, a2, a3⟩ := appendHead_keys committed st.bucket rec0
      rw [hb] at i1 i2 i4
      have htab : ∀ d x, x ∈ st.table d → x ∈ (addLine parse committed n st line).table d := by
        intro d x hx
        rw [ht]
        split
        · exact hx
        · exact appendToTable_mono _ _ _ _ _ hx
      refine ⟨fun k hk => i1 k (a1 k hk), fun hnd => i2 (a2 hnd),
        fun d x hx => i3 d x (htab d x hx), ?_, ?_, ?_⟩
      · intro hsub l hl rec hrec
        rcases List.mem_cons.1 hl with h | h
        · rw [h, hp] at hrec
          cases hrec
          exact i1 _ (a3 hsub)
        · exact i4 (fun k hk => a1 k (hsub k hk)) l h rec hrec
      · intro l hl rec hrec htags
        rcases List.mem_cons.1 hl with h | h
        · rw [h, hp] at hrec
          cases hrec
          apply i3
          rw [ht, if_neg htags]
          exact appendToTable_self _ _ _
        · exact i5 l h rec hrec htags
      · intro d hd
        rw [i6 d (fun l hl => hd l (List.mem_cons_of_mem _ hl)), ht]
        by_cases htags : rec0.tags = []
        · rw [if_pos htags]
        · rw [if_neg htags]
          apply appendToTable_other
          intro hdd
          exact htags (hd line (List.mem_cons_self _ _) rec0 hp hdd.symm)

theorem foldl_addLine_filter (parse : String → Option RecentRec) (committed : Bucket) (n : Node)
    (lines : List String) :
    ∀ (st : RecentState), lines.foldl (addLine parse committed n) st =
      (lines.filter (fun l => (parse l).isSome)).foldl (addLine parse committed n) st := by
  induction lines with
  | nil => intro st; rfl
  | cons line rest ih =>
    intro st
    cases hp : parse line with
    | none =>
      have hst : addLine parse committed n st line = st := by simp [addLine, hp]
      simp only [List.foldl_cons, List.filter_cons, hp, Option.isSome_none, hst]
      exact ih st
    | some rec0 =>
      simp only [List.foldl_cons, List.filter_cons, hp, Option.isSome_some, if_true]
      exact ih _

/-- C16 (the code at the failing input): peer A answers with one line that
parses into a record of the datfile `d` without tags. The record is stored, but
peer A is not registered as a source of `d`. -/
theorem get_untagged_not_registered :
    parseEx "plain" = some ⟨"d", "d_100_aa", "v1", []⟩ ∧
    (get parseEx peerA (some ["plain"]) recentEmpty).bucket = [("d_100_aa", "v1")] ∧
    peerA ∉ (get parseEx peerA (some ["plain"]) recentEmpty).table "d" := by
  decide

/-- What `get` does with the lines of a response of peer `n`, the parts of C16
that hold included: every line that parses is stored under its key, and the keys
of the bucket stay distinct; lines that do not parse are skipped, the outcome
being that of the parsing lines alone. The call that registers `n` is reached
for the records that carry a tag only: `n` is registered for the datfile of
each of those, and the table of a datfile for which no parsed record carries a
tag is left as it was. -/
theorem get_refresh (parse : String → Option RecentRec) (n : Node) (lines : List String)
    (st : RecentState) :
    (∀ line ∈ lines, ∀ rec, parse line = some rec →
      rec.key ∈ (get parse n (some lines) st).bucket.map Prod.fst) ∧
    ((st.bucket.map Prod.fst).Nodup →
      ((get parse n (some lines) st).bucket.map Prod.fst).Nodup) ∧
    (∀ line ∈ lines, ∀ rec, parse line = some rec → rec.tags ≠ [] →
      n ∈ (get parse n (some lines) st).table rec.Datfile) ∧
    (∀ d, (∀ line ∈ lines, ∀ rec, parse line = some rec → rec.Datfile = d → rec.tags = []) →
      (get parse n (some lines) st).table d = st.table d) ∧
    get parse n (some lines) st =
      get parse n (some (lines.filter (fun l => (parse l).isSome))) st := by
  obtain ⟨_, i2, _, i4, i5, i6⟩ := foldl_addLine parse st.bucket n lines st
    (get parse n (some lines) st) rfl
  exact ⟨i4 (fun _ h => h), i2, i5, i6, foldl_addLine_filter parse st.bucket n lines st⟩

/-- The example response, with a line that does not parse between two that do:
the tagged record registers peer A for its datfile `e`, the table of the datfile
`d` of the untagged record is as before, and both records are stored. -/
theorem get_refresh_witness :
    peerA ∈ (get parseEx peerA (some ["plain", "broken", "tagged"]) recentEmpty).table "e" ∧
    (get parseEx peerA (some ["plain", "broken", "tagged"]) recentEmpty).table "d" =
      recentEmpty.table "d" ∧
    (get parseEx peerA (some ["plain", "broken", "tagged"]) recentEmpty).bucket =
      [("d_100_aa", "v1"), ("e_200_bb", "v2")] :=
  ⟨(get_refresh parseEx peerA ["plain", "broken", "tagged"] recentEmpty).2.2.1 "tagged"
      (by decide) ⟨"e", "e_200_bb", "v2", ["news"]⟩ (by decide) (by decide),
    by decide, by decide⟩

end Download
